import Mathlib

/-!
A shallow embedding of the truth-table generator (an Obsidian plugin whose
core is `generateRPN`, a shunting-yard compiler with one pending-operator
stack per parenthesis nesting level, and `generateTruthTable`, which replays
the produced postfix program symbolically for the table header and
numerically for each of the `2 ^ N` rows).

Modelling conventions:
* JavaScript arrays used as stacks (`push`/`pop` at the end) are modelled as
  Lean lists whose head is the stack top.
* The sparse array `pendingOperations` (which can have holes, since
  `pendingOperations[parenLevel] = ...` may skip indices, and `parenLevel`
  can go negative on unmatched `)`) is modelled as a function
  `Int → Option (List Char)`, `none` standing for a missing entry
  (JavaScript `undefined`).
* The only crash in the source is reading `.length`/`.pop` of such an
  `undefined` entry inside `generateRPN`; the embedding returns `none`
  (thrown TypeError) there, and `some` on normal returns.
* The numeric evaluator never crashes in JavaScript: `pop()` on an empty
  array yields `undefined`, which then flows through the JS coercions
  (`Number(!x)`, bitwise `ToInt32` turning `undefined` into `0`, truthiness,
  strict equality).  The operand slots are therefore modelled as
  `Option Nat`, `none` standing for `undefined`.
-/

set_option maxRecDepth 8000

namespace TruthTable

/-- Precedence from the source's `operators` record (`priority` fields). -/
def priority (c : Char) : Nat :=
  if c = '~' then 5
  else if c = '&' then 4
  else if c = '|' then 3
  else if c = '^' then 3
  else if c = '>' then 2
  else if c = '<' then 1
  else 0

/-- Key-membership test (`token in operators`) for character tokens. -/
def isOp (c : Char) : Bool :=
  c = '~' || c = '&' || c = '|' || c = '^' || c = '>' || c = '<'

/-- Key-membership test (`token in operators`) for string tokens of the
postfix program. -/
def isOpStr (s : String) : Bool :=
  s = "~" || s = "&" || s = "|" || s = "^" || s = ">" || s = "<"

/-- The `latex` field of the `operators` record, for string tokens. -/
def opLatexStr (s : String) : String :=
  if s = "~" then "\\neg\x7b\x7d"
  else if s = "&" then "\\land\x7b\x7d"
  else if s = "|" then "\\lor\x7b\x7d"
  else if s = "^" then "\\oplus\x7b\x7d"
  else if s = ">" then "\\implies\x7b\x7d"
  else if s = "<" then "\\iff\x7b\x7d"
  else ""

/-- The `RPN` record type of the source.  The two JavaScript objects used as
dictionaries are modelled as association lists in insertion order (JS string
keys preserve insertion order). -/
structure RPN where
  data : List String
  codeVars : List String
  mathToCodeVars : List (Char × String)
  codeToMathVars : List (String × Char)
  variableCount : Nat
deriving DecidableEq

/-- The local state of `generateRPN`'s scan loop. -/
structure CState where
  rpn : RPN
  pend : Int → Option (List Char)
  parenLevel : Int

/-- Pointwise update of the sparse `pendingOperations` array. -/
def updateF (f : Int → Option (List Char)) (k : Int) (v : List Char) :
    Int → Option (List Char) :=
  fun l => if l = k then some v else f l

/-- One iteration of `generateRPN`'s character loop.  `none` models the
TypeError thrown when `pendingOperations[parenLevel]` is `undefined` and the
`)` branch reads `.length` of it. -/
def step (σ : CState) (token : Char) : Option CState :=
  if token = '(' then
    some { σ with parenLevel := σ.parenLevel + 1 }
  else if token = ')' then
    match σ.pend σ.parenLevel with
    | none => none
    | some stk =>
      some { σ with
        rpn := { σ.rpn with data := σ.rpn.data ++ stk.map Char.toString },
        pend := updateF σ.pend σ.parenLevel [],
        parenLevel := σ.parenLevel - 1 }
  else if isOp token then
    match σ.pend σ.parenLevel with
    | none =>
      some { σ with pend := updateF σ.pend σ.parenLevel [token] }
    | some stk =>
      if stk.isEmpty then
        some { σ with pend := updateF σ.pend σ.parenLevel [token] }
      else
        some { σ with
          rpn := { σ.rpn with data :=
            σ.rpn.data ++ (stk.takeWhile (fun t => priority token < priority t)).map Char.toString },
          pend := updateF σ.pend σ.parenLevel
            (token :: stk.dropWhile (fun t => priority token < priority t)) }
  else
    match List.lookup token σ.rpn.mathToCodeVars with
    | some cv =>
      some { σ with rpn := { σ.rpn with data := σ.rpn.data ++ [cv] } }
    | none =>
      some { σ with rpn := { σ.rpn with
        data := σ.rpn.data ++ ["var" ++ Nat.repr (σ.rpn.variableCount + 1)],
        codeVars := σ.rpn.codeVars ++ ["var" ++ Nat.repr (σ.rpn.variableCount + 1)],
        mathToCodeVars := σ.rpn.mathToCodeVars ++ [(token, "var" ++ Nat.repr (σ.rpn.variableCount + 1))],
        codeToMathVars := σ.rpn.codeToMathVars ++ [("var" ++ Nat.repr (σ.rpn.variableCount + 1), token)],
        variableCount := σ.rpn.variableCount + 1 } }

/-- Run the scan loop over a list of characters. -/
def runFrom (σ : CState) : List Char → Option CState
  | [] => some σ
  | c :: cs => (step σ c).bind (fun σ2 => runFrom σ2 cs)

/-- The initial scan state: empty output, one empty pending stack at level 0. -/
def initState : CState :=
  ⟨⟨[], [], [], [], 0⟩, fun l => if l = 0 then some [] else none, 0⟩

/-- JavaScript `String.prototype.trim`: strip leading and trailing
whitespace.  (The source's only whitespace handling.) -/
def trimJS (l : List Char) : List Char :=
  ((l.dropWhile Char.isWhitespace).reverse.dropWhile Char.isWhitespace).reverse

/-- The source's `generateRPN`.  After the scan it drains the pending stack
at the current level only; `none` models the TypeError crash (reading a hole
of `pendingOperations`). -/
def generateRPN (proposition : String) : Option RPN :=
  (runFrom initState (trimJS proposition.data)).bind (fun σ =>
    match σ.pend σ.parenLevel with
    | none => none
    | some stk =>
      some { σ.rpn with data := σ.rpn.data ++ stk.map Char.toString })

/-- The source's `intToChar` lookup record (defined on 0 and 1 only). -/
def intToChar (n : Nat) : Option String :=
  if n = 0 then some "F"
  else if n = 1 then some "T"
  else none

/-- Header synthesis (the "simulated operating stack" loop): walks the
postfix program with a stack of display strings and records, per operator
token, the pair (token index, synthesized label).  A pop from an empty stack
yields JavaScript `undefined`, which string concatenation renders as
"undefined". -/
def headerPass (ct : List (String × Char)) :
    List String → Nat → List String → List (Nat × String)
  | [], _, _ => []
  | token :: rest, idx, stack =>
    if isOpStr token then
      if token = "~" then
        (idx, "\\overline\x7b" ++ (stack.head?.getD "undefined") ++ "\x7d") ::
          headerPass ct rest (idx + 1)
            (("\\overline\x7b" ++ (stack.head?.getD "undefined") ++ "\x7d") :: stack.tail)
      else
        (idx, (stack.tail.head?.getD "undefined") ++ opLatexStr token ++ (stack.head?.getD "undefined")) ::
          headerPass ct rest (idx + 1)
            (((stack.tail.head?.getD "undefined") ++ opLatexStr token ++ (stack.head?.getD "undefined")) :: stack.tail.tail)
    else
      headerPass ct rest (idx + 1)
        ((((List.lookup token ct).map Char.toString).getD "undefined") :: stack)

/-- A token of `convertedRPNData`: a variable index or a kept string. -/
inductive RToken where
  | num (n : Nat)
  | str (s : String)
deriving DecidableEq

/-- The source's `convertedRPNData` map: replace code variables by their
index in `codeVars`, keep other strings. -/
def convertRPN (rpn : RPN) : List RToken :=
  rpn.data.map (fun value =>
    if rpn.codeVars.contains value then RToken.num (rpn.codeVars.indexOf value)
    else RToken.str value)

/-- JavaScript `pop()` on a stack possibly holding `undefined` slots: the
popped element (or `undefined` for an empty stack) and the rest. -/
def popJS (stack : List (Option Nat)) : Option Nat × List (Option Nat) :=
  ((stack.head?).getD none, stack.tail)

/-- JavaScript truthiness of a number-or-undefined. -/
def truthy : Option Nat → Bool
  | none => false
  | some n => !(n = 0)

/-- JavaScript `ToInt32` coercion as used by the bitwise operators
(`undefined` becomes `NaN` becomes `0`). -/
def toInt32 : Option Nat → Nat
  | none => 0
  | some n => n

/-- One operator case of the numeric `switch`: the computed `value` and the
stack after the pops.  The default case leaves `value = 0` and pops
nothing. -/
def evalOpValue (token : String) (stack : List (Option Nat)) :
    Nat × List (Option Nat) :=
  if token = "~" then
    (if truthy (popJS stack).1 then 0 else 1, (popJS stack).2)
  else if token = "&" then
    (Nat.land (toInt32 (popJS (popJS stack).2).1) (toInt32 (popJS stack).1),
      (popJS (popJS stack).2).2)
  else if token = "|" then
    (Nat.lor (toInt32 (popJS (popJS stack).2).1) (toInt32 (popJS stack).1),
      (popJS (popJS stack).2).2)
  else if token = "^" then
    (Nat.xor (toInt32 (popJS (popJS stack).2).1) (toInt32 (popJS stack).1),
      (popJS (popJS stack).2).2)
  else if token = ">" then
    (if truthy (popJS (popJS stack).2).1 && !truthy (popJS stack).1 then 0 else 1,
      (popJS (popJS stack).2).2)
  else if token = "<" then
    (if (popJS (popJS stack).2).1 = (popJS stack).1 then 1 else 0,
      (popJS (popJS stack).2).2)
  else
    (0, stack)

/-- The numeric replay of one row: walks `convertedRPNData` with the numeric
operating stack, returning the list of (token index, cell value) pairs the
row prints for operator tokens, together with the final stack.  A number
token pushes `values[token]` (which is `undefined` when out of range). -/
def evalPass (values : List Nat) :
    List RToken → Nat → List (Option Nat) → List (Nat × Nat) × List (Option Nat)
  | [], _, stack => ([], stack)
  | RToken.num n :: rest, idx, stack =>
    evalPass values rest (idx + 1) (values.get? n :: stack)
  | RToken.str token :: rest, idx, stack =>
    ((idx, (evalOpValue token stack).1) ::
        (evalPass values rest (idx + 1) (some (evalOpValue token stack).1 :: (evalOpValue token stack).2)).1,
      (evalPass values rest (idx + 1) (some (evalOpValue token stack).1 :: (evalOpValue token stack).2)).2)

/-- The per-run toggle of the `values` array: `values[i]` flips whenever
`runNumber % 2 ^ (variableCount - i - 1) = 0` (and `Number(!v)` is 1 exactly
when `v = 0`). -/
def toggleStep (variableCount runNumber : Nat) (values : List Nat) : List Nat :=
  values.mapIdx (fun i v =>
    if runNumber % 2 ^ (variableCount - i - 1) = 0 then (if v = 0 then 1 else 0) else v)

/-- The `values` array after the toggle of run `r` (the array starts as all
zeros and persists across runs). -/
def valuesAfter (variableCount : Nat) : Nat → List Nat
  | 0 => toggleStep variableCount 0 (List.replicate variableCount 0)
  | r + 1 => toggleStep variableCount (r + 1) (valuesAfter variableCount r)

/-- The assignments of the `2 ^ N` data rows of the truth table, in emitted
order. -/
def tableRows (variableCount : Nat) : List (List Nat) :=
  (List.range (2 ^ variableCount)).map (valuesAfter variableCount)

/-- The classical RPN stack-discipline checker over string tokens: starting
from `h` values on the stack, `"~"` needs one operand, any other operator
two (net minus one), anything else is an operand push; `none` on
underflow. -/
def rpnCheck : List String → Nat → Option Nat
  | [], h => some h
  | t :: rest, h =>
    if t = "~" then (if 1 ≤ h then rpnCheck rest h else none)
    else if isOpStr t then (if 2 ≤ h then rpnCheck rest (h - 1) else none)
    else rpnCheck rest (h + 1)

/-- The classical RPN well-formedness invariant: evaluating left to right
with a stack, every operator finds enough operands and exactly one value
remains at the end. -/
def wellFormedRPN (data : List String) : Prop :=
  rpnCheck data 0 = some 1

/-- Well-formed input propositions: a single variable character, a prefix
negation, a parenthesized group, or two well-formed parts joined by a binary
operator.  This is the "balanced parentheses, every operator supplied its
operands" notion of the specification. -/
inductive WFProp : List Char → Prop where
  | var (c : Char) : isOp c = false → c ≠ '(' → c ≠ ')' → WFProp [c]
  | neg {s : List Char} : WFProp s → WFProp ('~' :: s)
  | paren {s : List Char} : WFProp s → WFProp ('(' :: s ++ [')'])
  | binop {s t : List Char} (c : Char) : isOp c = true → c ≠ '~' →
      WFProp s → WFProp t → WFProp (s ++ c :: t)

/-- Stack-discipline checker for converted (numeric) programs: every
variable index must be in range and every operator must find its
operands. -/
def tokCheck (numVars : Nat) : List RToken → Nat → Option Nat
  | [], h => some h
  | RToken.num n :: rest, h =>
    if n < numVars then tokCheck numVars rest (h + 1) else none
  | RToken.str t :: rest, h =>
    if t = "~" then (if 1 ≤ h then tokCheck numVars rest h else none)
    else if isOpStr t then (if 2 ≤ h then tokCheck numVars rest (h - 1) else none)
    else none

/-- The run index whose row equals a given 0/1 assignment: the complement of
the assignment read as a big-endian binary number. -/
def decodeRow : List Nat → Nat
  | [] => 0
  | v :: rest => (1 - v) * 2 ^ rest.length + decodeRow rest

/-- The compiled form of the documented worked example
`p&q|~(r>s)<t|(~q^~s)`. -/
def rpnExample : RPN :=
  { data := ["var1", "var2", "&", "var3", "var4", ">", "~", "|",
             "var5", "var2", "~", "var4", "~", "^", "|", "<"],
    codeVars := ["var1", "var2", "var3", "var4", "var5"],
    mathToCodeVars := [('p', "var1"), ('q', "var2"), ('r', "var3"),
                       ('s', "var4"), ('t', "var5")],
    codeToMathVars := [("var1", 'p'), ("var2", 'q'), ("var3", 'r'),
                       ("var4", 's'), ("var5", 't')],
    variableCount := 5 }

/-- Numeric value of a decimal digit character. -/
def digitVal (c : Char) : Nat := c.toNat - 48

/-- Big-endian numeric value of a digit string (used to invert
`Nat.repr`). -/
def digitsVal (l : List Char) : Nat :=
  l.foldl (fun acc c => acc * 10 + digitVal c) 0

/-- The pending stack at the current nesting level (empty when missing), as
read by drains. -/
def pendCur (σ : CState) : List Char := (σ.pend σ.parenLevel).getD []

def drainWord (stk : List Char) : List String := stk.map Char.toString

def INVhi (σ : CState) : Prop :=
  ∀ l : Int, σ.parenLevel < l → σ.pend l = none ∨ σ.pend l = some []

def SOK (σ : CState) : Prop :=
  ∀ l : Int, ∀ c ∈ (σ.pend l).getD [], isOp c = true

def VOK (σ : CState) : Prop :=
  ∀ p ∈ σ.rpn.mathToCodeVars, isOpStr p.2 = false

/-- The bookkeeping invariant tying `codeVars`, the two variable maps and
`variableCount` together. -/
def MapsInv (rpn : RPN) : Prop :=
  rpn.codeVars = (List.range rpn.variableCount).map (fun k => "var" ++ Nat.repr (k + 1)) ∧
  rpn.mathToCodeVars.map Prod.snd = rpn.codeVars ∧
  rpn.codeToMathVars = rpn.mathToCodeVars.map (fun p => (p.2, p.1)) ∧
  (rpn.mathToCodeVars.map Prod.fst).Nodup

/-- The operator-token positions of a postfix program (the spec-side
description of where columns/cells appear). -/
def opPositions : List String → Nat → List Nat
  | [], _ => []
  | t :: rest, idx =>
    if isOpStr t then idx :: opPositions rest (idx + 1) else opPositions rest (idx + 1)

/-- C3: compiling the documented worked example `p&q|~(r>s)<t|(~q^~s)`
yields the postfix program [p, q, &, r, s, >, ~, |, t, q, ~, s, ~, ^, |, <]
(internally [var1, var2, &, var3, var4, >, ~, |, var5, var2, ~, var4, ~, ^,
|, <] with p,q,r,s,t numbered 1..5 in first-occurrence order), and the
numeric replay under p=T, q=F, r=T, s=F, t=T leaves exactly the truth value
1 (true) on the operating stack. -/
theorem C3_worked_example :
    generateRPN "p&q|~(r>s)<t|(~q^~s)" = some rpnExample ∧
    (evalPass [1, 0, 1, 0, 1] (convertRPN rpnExample) 0 []).2 = [some 1] := by
  decide

/-- C5: the claim says compiling `(p)` succeeds and emits [p], the drain
over the (conceptually empty) level-1 stack being a no-op.  The code
disagrees: no stack is ever created for level 1 (creation happens only in
the operator branch), so the `)` branch reads `.length` of `undefined` and
throws a TypeError, modelled here as `generateRPN "(p)" = none`. -/
theorem C5_paren_no_operator_crashes : generateRPN "(p)" = none := by
  decide

/-- C6 counterexample: compiling the malformed input `(p&q` (unmatched `(`)
is NOT detected and reported as an error: `generateRPN` returns normally
with an ordinary-looking postfix program [p, q, &]. -/
theorem C6_counterexample :
    generateRPN "(p&q" = some
      { data := ["var1", "var2", "&"],
        codeVars := ["var1", "var2"],
        mathToCodeVars := [('p', "var1"), ('q', "var2")],
        codeToMathVars := [("var1", 'p'), ("var2", 'q')],
        variableCount := 2 } := by
  decide

/-- C6 (amended): compiling `(p&q` is not detected as malformed; the final
drain empties the unmatched level's pending stack and `generateRPN` silently
returns the normal-looking postfix program [p, q, &] — the very same data as
for the balanced input `p&q`. -/
theorem C6_unmatched_paren_silent :
    (generateRPN "(p&q").map RPN.data = some ["var1", "var2", "&"] ∧
    (generateRPN "(p&q").map RPN.data = (generateRPN "p&q").map RPN.data := by
  decide

/-- Helper: an operator character is neither `(` nor `)`. -/
theorem isOp_ne_paren {c : Char} (h : isOp c = true) : c ≠ '(' ∧ c ≠ ')' := by
  simp only [isOp, Bool.or_eq_true, decide_eq_true_eq] at h
  rcases h with ((((h | h) | h) | h) | h) | h <;> subst h <;> exact ⟨by decide, by decide⟩

/-- C4: when an operator token `c` is scanned at the current nesting level:
with no pending stack (or an empty one) at that level the operator is just
pushed; with a non-empty stack, operators are popped and emitted while the
top's precedence is strictly greater than `c`'s (every emitted operator
satisfies that strict inequality), then `c` is pushed; in particular an
equal-precedence top is never popped (no emission, stack `c :: d :: stk`),
and compiling `a&b&c` leaves both `&` on the stack until the final drain,
giving postfix [a, b, c, &, &]. -/
theorem C4_operator_scan :
    (∀ σ c, isOp c = true →
        (σ.pend σ.parenLevel = none ∨ σ.pend σ.parenLevel = some []) →
        step σ c = some { σ with pend := updateF σ.pend σ.parenLevel [c] }) ∧
    (∀ σ c stk, isOp c = true → σ.pend σ.parenLevel = some stk → stk ≠ [] →
        step σ c = some { σ with
          rpn := { σ.rpn with data := σ.rpn.data ++
            (stk.takeWhile (fun t => priority c < priority t)).map Char.toString },
          pend := updateF σ.pend σ.parenLevel
            (c :: stk.dropWhile (fun t => priority c < priority t)) } ∧
        (∀ d ∈ stk.takeWhile (fun t => priority c < priority t), priority c < priority d)) ∧
    (∀ σ c d stk, isOp c = true → σ.pend σ.parenLevel = some (d :: stk) →
        priority d ≤ priority c →
        step σ c = some { σ with pend := updateF σ.pend σ.parenLevel (c :: d :: stk) }) ∧
    (generateRPN "a&b&c").map RPN.data = some ["var1", "var2", "var3", "&", "&"] := by
  refine ⟨?_, ?_, ?_, by decide⟩
  · intro σ c hc hp
    obtain ⟨h1, h2⟩ := isOp_ne_paren hc
    rcases hp with hp | hp <;>
      simp only [step, if_neg h1, if_neg h2, hc, if_pos, hp, List.isEmpty_nil, if_true]
  · intro σ c stk hc hp hne
    obtain ⟨h1, h2⟩ := isOp_ne_paren hc
    have hE : stk.isEmpty = false := by
      cases stk with
      | nil => exact absurd rfl hne
      | cons a l => rfl
    constructor
    · simp only [step, if_neg h1, if_neg h2, hc, if_pos, hp, hE, Bool.false_eq_true, if_false]
    · intro d hd
      have hx := List.mem_takeWhile_imp hd
      simpa using hx
  · intro σ c d stk hc hp hle
    obtain ⟨h1, h2⟩ := isOp_ne_paren hc
    have hnp : ¬ (priority c < priority d) := by omega
    have ht : List.takeWhile (fun t => decide (priority c < priority t)) (d :: stk) = [] := by
      rw [List.takeWhile_cons_of_neg]
      simpa using hnp
    have hd2 : List.dropWhile (fun t => decide (priority c < priority t)) (d :: stk) = d :: stk := by
      rw [List.dropWhile_cons_of_neg]
      simpa using hnp
    simp only [step, if_neg h1, if_neg h2, hc, if_pos, hp, List.isEmpty_cons,
      Bool.false_eq_true, if_false, ht, hd2, List.map_nil, List.append_nil]

/-- Witness for C4 at the concrete state `initState` and operator `&`. -/
theorem C4_witness :
    isOp '&' = true ∧
    (initState.pend initState.parenLevel = none ∨
      initState.pend initState.parenLevel = some []) ∧
    step initState '&' = some { initState with
      pend := updateF initState.pend initState.parenLevel ['&'] } :=
  ⟨by decide, Or.inr rfl, C4_operator_scan.1 initState '&' (by decide) (Or.inr rfl)⟩

/-- Helper: `getD` at an in-range index is `getElem`. -/
theorem getD_of_lt (l : List Nat) (i : Nat) (h : i < l.length) : l.getD i 0 = l[i] := by
  simp [List.getD_eq_getElem?_getD, List.getElem?_eq_getElem h]

/-- The toggle pass preserves the length of `values`. -/
theorem length_toggleStep (N r : Nat) (vs : List Nat) :
    (toggleStep N r vs).length = vs.length := by
  simp [toggleStep]

/-- The `values` array always has `variableCount` entries. -/
theorem length_valuesAfter (N : Nat) : ∀ r, (valuesAfter N r).length = N
  | 0 => by simp [valuesAfter, length_toggleStep]
  | r + 1 => by simp [valuesAfter, length_toggleStep, length_valuesAfter N r]

/-- Key identity: the incremental toggle scheme computes, after run `r`,
`values[i] = (r / 2 ^ (N - i - 1) + 1) % 2`. -/
theorem valuesAfter_getD (N : Nat) :
    ∀ r i, i < N → (valuesAfter N r).getD i 0 = (r / 2 ^ (N - i - 1) + 1) % 2 := by
  intro r
  induction r with
  | zero =>
    intro i hi
    have hlen : i < (valuesAfter N 0).length := by rw [length_valuesAfter]; exact hi
    rw [getD_of_lt _ _ hlen]
    have hrep : i < (List.replicate N (0 : Nat)).length := by simpa using hi
    simp [valuesAfter, toggleStep, Nat.zero_mod, Nat.zero_div]
  | succ r ih =>
    intro i hi
    have hlen : i < (valuesAfter N (r + 1)).length := by rw [length_valuesAfter]; exact hi
    have hlenr : i < (valuesAfter N r).length := by rw [length_valuesAfter]; exact hi
    rw [getD_of_lt _ _ hlen]
    have ihe : (valuesAfter N r)[i] = (r / 2 ^ (N - i - 1) + 1) % 2 := by
      rw [← getD_of_lt _ _ hlenr]; exact ih i hi
    simp only [valuesAfter, toggleStep, List.getElem_mapIdx]
    rw [ihe]
    by_cases hdvd : (r + 1) % 2 ^ (N - i - 1) = 0
    · rw [if_pos hdvd, Nat.succ_div_of_dvd (Nat.dvd_of_mod_eq_zero hdvd)]
      split <;> omega
    · rw [if_neg hdvd, Nat.succ_div_of_not_dvd (fun hd => hdvd (Nat.mod_eq_zero_of_dvd hd))]

/-- The toggle scheme equals the bit-complement formula:
`values[i]` after run `r` is the complement of bit `N - i - 1` of `r`. -/
theorem valuesAfter_getD_compl (N r i : Nat) (hi : i < N) :
    (valuesAfter N r).getD i 0 = 1 - r / 2 ^ (N - i - 1) % 2 := by
  rw [valuesAfter_getD N r i hi]
  omega

/-- Distinct run indices below `2 ^ N` produce distinct rows. -/
theorem valuesAfter_inj (N r r2 : Nat) (hr : r < 2 ^ N) (hr2 : r2 < 2 ^ N)
    (h : valuesAfter N r = valuesAfter N r2) : r = r2 := by
  apply Nat.eq_of_testBit_eq
  intro k
  by_cases hk : k < N
  · have hi : N - 1 - k < N := by omega
    have hksub : N - (N - 1 - k) - 1 = k := by omega
    have h1 := valuesAfter_getD_compl N r (N - 1 - k) hi
    have h2 := valuesAfter_getD_compl N r2 (N - 1 - k) hi
    rw [h] at h1
    rw [hksub] at h1 h2
    have hmod : r / 2 ^ k % 2 = r2 / 2 ^ k % 2 := by omega
    rw [Nat.testBit_to_div_mod, Nat.testBit_to_div_mod, hmod]
  · have hle : 2 ^ N ≤ 2 ^ k := Nat.pow_le_pow_right (by omega) (by omega)
    rw [Nat.testBit_lt_two_pow (by omega), Nat.testBit_lt_two_pow (by omega)]

/-- `decodeRow` lands below `2 ^ length`. -/
theorem decodeRow_lt : ∀ a : List Nat, decodeRow a < 2 ^ a.length := by
  intro a
  induction a with
  | nil => simp [decodeRow]
  | cons v rest ih =>
    have h2 : 2 ^ (v :: rest).length = 2 ^ rest.length + 2 ^ rest.length := by
      simp [List.length_cons, Nat.pow_succ]
      omega
    have hv : (1 - v) * 2 ^ rest.length ≤ 2 ^ rest.length := by
      have : 1 - v ≤ 1 := by omega
      exact Nat.mul_le_mul_right _ this |>.trans (by omega)
    simp only [decodeRow]
    omega

/-- The bits of `decodeRow a` are the complements of the entries of `a`. -/
theorem decodeRow_div (a : List Nat) :
    ∀ i, i < a.length → (∀ x ∈ a, x ≤ 1) →
      decodeRow a / 2 ^ (a.length - i - 1) % 2 = 1 - a.getD i 0 := by
  induction a with
  | nil => intro i hi; simp at hi
  | cons v rest ih =>
    intro i hi hb
    have hd : decodeRow rest < 2 ^ rest.length := decodeRow_lt rest
    cases i with
    | zero =>
      have hL : (v :: rest).length - 0 - 1 = rest.length := by simp
      rw [hL]
      simp only [decodeRow, List.getD_cons_zero]
      rw [Nat.add_comm, Nat.add_mul_div_right _ _ (Nat.two_pow_pos _)]
      rw [Nat.div_eq_of_lt hd]
      omega
    | succ i =>
      have hi2 : i < rest.length := by simpa using hi
      have hL : (v :: rest).length - (i + 1) - 1 = rest.length - i - 1 := by simp
      rw [hL]
      have hsplit : 2 ^ rest.length =
          2 ^ (rest.length - (rest.length - i - 1)) * 2 ^ (rest.length - i - 1) := by
        rw [← Nat.pow_add]
        congr 1
        omega
      simp only [decodeRow, List.getD_cons_succ]
      rw [hsplit, ← Nat.mul_assoc, Nat.add_comm,
        Nat.add_mul_div_right _ _ (Nat.two_pow_pos _)]
      obtain ⟨m, hm⟩ : ∃ m,
          (1 - v) * 2 ^ (rest.length - (rest.length - i - 1)) = m * 2 := by
        refine ⟨(1 - v) * 2 ^ (rest.length - (rest.length - i - 1) - 1), ?_⟩
        rw [Nat.mul_assoc]
        congr 1
        rw [← Nat.pow_succ]
        congr 1
        omega
      rw [hm, Nat.add_mul_mod_self_right]
      exact ih i hi2 (fun x hx => hb x (List.mem_cons_of_mem _ hx))

/-- Every 0/1 assignment of length `N` is hit: it is the row of its decoded
run index. -/
theorem valuesAfter_decodeRow (N : Nat) (a : List Nat) (hlen : a.length = N)
    (hb : ∀ x ∈ a, x ≤ 1) : valuesAfter N (decodeRow a) = a := by
  apply List.ext_getElem (by rw [length_valuesAfter, hlen])
  intro i h1 h2
  have hi : i < N := by rw [length_valuesAfter] at h1; exact h1
  have e1 : (valuesAfter N (decodeRow a))[i] = 1 - decodeRow a / 2 ^ (N - i - 1) % 2 := by
    rw [← getD_of_lt _ _ h1]
    exact valuesAfter_getD_compl N (decodeRow a) i hi
  have e2 : decodeRow a / 2 ^ (a.length - i - 1) % 2 = 1 - a.getD i 0 :=
    decodeRow_div a i h2 hb
  have e3 : a.getD i 0 = a[i] := getD_of_lt a i h2
  have hx : a[i] ≤ 1 := hb _ (List.getElem_mem h2)
  rw [e1, hlen] at *
  omega

/-- Row 0 is all-true. -/
theorem row_first (N : Nat) : valuesAfter N 0 = List.replicate N 1 := by
  apply List.ext_getElem (by simp [length_valuesAfter])
  intro i h1 h2
  have hi : i < N := by rw [length_valuesAfter] at h1; exact h1
  have e1 : (valuesAfter N 0)[i] = (0 / 2 ^ (N - i - 1) + 1) % 2 := by
    rw [← getD_of_lt _ _ h1]
    exact valuesAfter_getD N 0 i hi
  rw [e1]
  simp

/-- Row `2 ^ N - 1` is all-false. -/
theorem row_last (N : Nat) : valuesAfter N (2 ^ N - 1) = List.replicate N 0 := by
  apply List.ext_getElem (by simp [length_valuesAfter])
  intro i h1 h2
  have hi : i < N := by rw [length_valuesAfter] at h1; exact h1
  have e1 : (valuesAfter N (2 ^ N - 1))[i] = 1 - (2 ^ N - 1) / 2 ^ (N - i - 1) % 2 := by
    rw [← getD_of_lt _ _ h1]
    exact valuesAfter_getD_compl N (2 ^ N - 1) i hi
  have h1p : 0 < 2 ^ (N - i - 1) := Nat.two_pow_pos _
  have h2p : 0 < 2 ^ (N - (N - i - 1)) := Nat.two_pow_pos _
  have hsplit : 2 ^ (N - i - 1) * 2 ^ (N - (N - i - 1)) = 2 ^ N := by
    rw [← Nat.pow_add]
    congr 1
    omega
  have hBA : (2 ^ (N - (N - i - 1)) - 1) * 2 ^ (N - i - 1) = 2 ^ N - 2 ^ (N - i - 1) := by
    rw [Nat.sub_mul, Nat.one_mul, Nat.mul_comm, hsplit]
  have hA_le : 2 ^ (N - i - 1) ≤ 2 ^ N := by
    calc 2 ^ (N - i - 1) ≤ 2 ^ (N - i - 1) * 2 ^ (N - (N - i - 1)) :=
          Nat.le_mul_of_pos_right _ h2p
      _ = 2 ^ N := hsplit
  have hrepr : 2 ^ N - 1 =
      2 ^ (N - i - 1) - 1 + (2 ^ (N - (N - i - 1)) - 1) * 2 ^ (N - i - 1) := by
    omega
  have hdiv : (2 ^ N - 1) / 2 ^ (N - i - 1) = 2 ^ (N - (N - i - 1)) - 1 := by
    rw [hrepr, Nat.add_mul_div_right _ _ h1p, Nat.div_eq_of_lt (by omega)]
    omega
  have hodd : (2 ^ (N - (N - i - 1)) - 1) % 2 = 1 := by
    obtain ⟨m, hm⟩ : (2 : Nat) ∣ 2 ^ (N - (N - i - 1)) :=
      dvd_pow_self 2 (by omega : N - (N - i - 1) ≠ 0)
    omega
  rw [e1, hdiv, hodd]
  simp

/-- No assignment is emitted twice. -/
theorem tableRows_nodup (N : Nat) : (tableRows N).Nodup := by
  apply List.Nodup.map_on
  · intro r hr r2 hr2 h
    exact valuesAfter_inj N r r2 (List.mem_range.mp hr) (List.mem_range.mp hr2) h
  · exact List.nodup_range _

/-- Every 0/1 assignment of the right length is emitted. -/
theorem tableRows_complete (N : Nat) (a : List Nat) (hlen : a.length = N)
    (hb : ∀ x ∈ a, x ≤ 1) : a ∈ tableRows N := by
  have hmem : decodeRow a ∈ List.range (2 ^ N) := by
    rw [List.mem_range, ← hlen]
    exact decodeRow_lt a
  have := List.mem_map_of_mem (valuesAfter N) hmem
  rwa [valuesAfter_decodeRow N a hlen hb] at this

/-- Helper: in a duplicate-free list every member has count 1. -/
theorem count_one_of_nodup_mem (l : List (List Nat)) (a : List Nat)
    (hn : l.Nodup) (hm : a ∈ l) : l.count a = 1 := by
  induction l with
  | nil => simp at hm
  | cons b t ih =>
    rcases List.mem_cons.mp hm with h | h
    · subst h
      rw [List.count_cons_self, List.count_eq_zero.mpr (List.nodup_cons.mp hn).1]
    · have hb : a ≠ b := by
        rintro rfl
        exact ((List.nodup_cons.mp hn).1 h).elim
      rw [List.count_cons_of_ne hb]
      exact ih (List.nodup_cons.mp hn).2 h

/-- C1: with `N ≥ 1` variables the truth-table body has exactly `2 ^ N`
data rows; each 0/1 assignment of length `N` appears exactly once; for run
index `r` the value assigned to the variable at 0-based first-occurrence
position `i` equals the complement `1 - r / 2 ^ (N - i - 1) % 2` of bit
`N - i - 1` of `r`; consequently row 0 is all-true and row `2 ^ N - 1` is
all-false.  The incremental-toggle scheme of the code is proved equal to
this bit-complement formula. -/
theorem C1_row_enumeration (N : Nat) (_hN : 1 ≤ N) :
    (tableRows N).length = 2 ^ N ∧
    (∀ r, r < 2 ^ N → ∀ i, i < N →
        (valuesAfter N r).getD i 0 = 1 - r / 2 ^ (N - i - 1) % 2) ∧
    (∀ a : List Nat, a.length = N → (∀ x ∈ a, x ≤ 1) → (tableRows N).count a = 1) ∧
    valuesAfter N 0 = List.replicate N 1 ∧
    valuesAfter N (2 ^ N - 1) = List.replicate N 0 := by
  refine ⟨by simp [tableRows], ?_, ?_, row_first N, row_last N⟩
  · intro r _ i hi
    exact valuesAfter_getD_compl N r i hi
  · intro a hlen hb
    exact count_one_of_nodup_mem _ _ (tableRows_nodup N) (tableRows_complete N a hlen hb)

/-- Witness for C1 at the concrete variable count 2. -/
theorem C1_witness :
    1 ≤ 2 ∧
    ((tableRows 2).length = 2 ^ 2 ∧
    (∀ r, r < 2 ^ 2 → ∀ i, i < 2 →
        (valuesAfter 2 r).getD i 0 = 1 - r / 2 ^ (2 - i - 1) % 2) ∧
    (∀ a : List Nat, a.length = 2 → (∀ x ∈ a, x ≤ 1) → (tableRows 2).count a = 1) ∧
    valuesAfter 2 0 = List.replicate 2 1 ∧
    valuesAfter 2 (2 ^ 2 - 1) = List.replicate 2 0) :=
  ⟨by decide, C1_row_enumeration 2 (by decide)⟩

/-- C7: per-row numeric evaluation of each operator on 0/1 operands, with
the first popped value (`some r`, the stack top) as the right operand and
the second popped (`some l`) as the left: NOT r is the logical negation of
r; AND (bitwise and) is 1 iff both are 1; OR (bitwise or) is 1 iff either
is 1; XOR (bitwise xor) is 1 iff they differ; IMPLIES is 0 exactly when
l = 1 and r = 0; IFF is 1 exactly when l = r. -/
theorem C7_operator_semantics (l r : Nat) (hl : l ≤ 1) (hr : r ≤ 1) :
    (∀ s, evalOpValue "~" (some r :: s) = ((if r = 0 then 1 else 0), s)) ∧
    (∀ s, evalOpValue "&" (some r :: some l :: s) = ((if l = 1 ∧ r = 1 then 1 else 0), s)) ∧
    (∀ s, evalOpValue "|" (some r :: some l :: s) = ((if l = 1 ∨ r = 1 then 1 else 0), s)) ∧
    (∀ s, evalOpValue "^" (some r :: some l :: s) = ((if l ≠ r then 1 else 0), s)) ∧
    (∀ s, evalOpValue ">" (some r :: some l :: s) = ((if l = 1 ∧ r = 0 then 0 else 1), s)) ∧
    (∀ s, evalOpValue "<" (some r :: some l :: s) = ((if l = r then 1 else 0), s)) := by
  interval_cases l <;> interval_cases r <;>
    refine ⟨fun s => ?_, fun s => ?_, fun s => ?_, fun s => ?_, fun s => ?_, fun s => ?_⟩ <;>
    simp [evalOpValue, popJS, truthy, toInt32] <;> rfl

/-- The header pass produces one column exactly at each operator token
position, whatever the stack holds. -/
theorem headerPass_positions (ct : List (String × Char)) :
    ∀ data idx stack,
      (headerPass ct data idx stack).map Prod.fst = opPositions data idx := by
  intro data
  induction data with
  | nil => intro idx stack; rfl
  | cons t rest ih =>
    intro idx stack
    have hnot : isOpStr "~" = true := by decide
    by_cases ht : isOpStr t = true
    · by_cases hn : t = "~" <;>
        simp [headerPass, opPositions, ht, hn, hnot, ih]
    · simp [headerPass, opPositions, ht, ih]

/-- Helper: `List.contains` agrees with membership for strings. -/
theorem contains_true_iff (cv : List String) (t : String) :
    cv.contains t = true ↔ t ∈ cv := by
  constructor
  · intro h
    exact (List.elem_iff).mp h
  · intro h
    exact List.elem_eq_true_of_mem h

/-- The numeric pass produces one data cell exactly at each operator token
position, provided tokens are classified consistently (a token is a code
variable iff it is not an operator). -/
theorem evalPass_positions (values : List Nat) (cv : List String) :
    ∀ data idx stack,
      (∀ t ∈ data, t ∈ cv ↔ isOpStr t = false) →
      ((evalPass values
          (data.map (fun value =>
            if cv.contains value then RToken.num (cv.indexOf value) else RToken.str value))
          idx stack).1).map Prod.fst = opPositions data idx := by
  intro data
  induction data with
  | nil => intro idx stack hclass; rfl
  | cons t rest ih =>
    intro idx stack hclass
    have hcl := hclass t (List.mem_cons_self _ _)
    have hrest : ∀ u ∈ rest, u ∈ cv ↔ isOpStr u = false :=
      fun u hu => hclass u (List.mem_cons_of_mem _ hu)
    rw [List.map_cons]
    cases hcb : cv.contains t with
    | true =>
      have hmem : t ∈ cv := (contains_true_iff cv t).mp hcb
      have hop : isOpStr t = false := hcl.mp hmem
      rw [if_pos rfl]
      show ((evalPass values (RToken.num (cv.indexOf t) :: _) idx stack).1).map Prod.fst = _
      rw [evalPass]
      rw [ih _ _ hrest, opPositions, if_neg (by rw [hop]; exact fun h => nomatch h)]
    | false =>
      have hmem : t ∉ cv := fun hm => by
        rw [(contains_true_iff cv t).mpr hm] at hcb
        exact nomatch hcb
      have hop : isOpStr t = true := by
        cases h : isOpStr t
        · exact absurd (hcl.mpr h) hmem
        · rfl
      rw [if_neg (fun h => nomatch h)]
      show ((evalPass values (RToken.str t :: _) idx stack).1).map Prod.fst = _
      rw [evalPass]
      rw [List.map_cons, ih _ _ hrest, opPositions, if_pos hop]

/-- C9: the symbolic replay (header synthesis) and the numeric replay visit
the program's tokens in the same order with the same stack discipline, so
the sequence of operator-token positions producing header columns equals
the sequence of positions producing data cells in every row (both equal the
operator positions of the program); header synthesis takes no numeric
input. -/
theorem C9_pass_alignment (rpn : RPN) (values : List Nat)
    (hclass : ∀ t ∈ rpn.data, t ∈ rpn.codeVars ↔ isOpStr t = false) :
    (headerPass rpn.codeToMathVars rpn.data 0 []).map Prod.fst = opPositions rpn.data 0 ∧
    ((evalPass values (convertRPN rpn) 0 []).1).map Prod.fst = opPositions rpn.data 0 ∧
    (headerPass rpn.codeToMathVars rpn.data 0 []).map Prod.fst =
      ((evalPass values (convertRPN rpn) 0 []).1).map Prod.fst := by
  have h1 := headerPass_positions rpn.codeToMathVars rpn.data 0 []
  have h2 := evalPass_positions values rpn.codeVars rpn.data 0 [] hclass
  exact ⟨h1, h2, h1.trans h2.symm⟩

/-- Witness for C9 at the compiled worked example. -/
theorem C9_witness :
    (∀ t ∈ rpnExample.data, t ∈ rpnExample.codeVars ↔ isOpStr t = false) ∧
    (headerPass rpnExample.codeToMathVars rpnExample.data 0 []).map Prod.fst =
      ((evalPass [1, 0, 1, 0, 1] (convertRPN rpnExample) 0 []).1).map Prod.fst :=
  ⟨by decide, (C9_pass_alignment rpnExample [1, 0, 1, 0, 1] (by decide)).2.2⟩

/-- Helper: bitwise and/or/xor of 0/1 operands stay in 0/1. -/
theorem bin01 (a b : Nat) (ha : a ≤ 1) (hb : b ≤ 1) :
    Nat.land a b ≤ 1 ∧ Nat.lor a b ≤ 1 ∧ Nat.xor a b ≤ 1 := by
  interval_cases a <;> interval_cases b <;> exact ⟨by decide, by decide, by decide⟩

/-- The `~` case always computes a 0/1 value and pops one slot. -/
theorem evalOpValue_neg (x : Option Nat) (s1 : List (Option Nat)) :
    (evalOpValue "~" (x :: s1)).1 ≤ 1 ∧ (evalOpValue "~" (x :: s1)).2 = s1 := by
  refine ⟨?_, rfl⟩
  have h1 : (evalOpValue "~" (x :: s1)).1 = if truthy x then 0 else 1 := rfl
  rw [h1]
  split <;> omega

/-- Every binary operator case computes a 0/1 value from 0/1 operands and
pops two slots. -/
theorem evalOpValue_binary (t : String) (ht : isOpStr t = true) (htn : t ≠ "~")
    (a b : Nat) (ha : a ≤ 1) (hb : b ≤ 1) (s2 : List (Option Nat)) :
    (evalOpValue t (some a :: some b :: s2)).1 ≤ 1 ∧
    (evalOpValue t (some a :: some b :: s2)).2 = s2 := by
  simp only [isOpStr, Bool.or_eq_true, decide_eq_true_eq] at ht
  rcases ht with ((((h | h) | h) | h) | h) | h
  · exact absurd h htn
  · subst h
    refine ⟨?_, rfl⟩
    have e : (evalOpValue "&" (some a :: some b :: s2)).1 = Nat.land b a := rfl
    rw [e]
    exact (bin01 b a hb ha).1
  · subst h
    refine ⟨?_, rfl⟩
    have e : (evalOpValue "|" (some a :: some b :: s2)).1 = Nat.lor b a := rfl
    rw [e]
    exact (bin01 b a hb ha).2.1
  · subst h
    refine ⟨?_, rfl⟩
    have e : (evalOpValue "^" (some a :: some b :: s2)).1 = Nat.xor b a := rfl
    rw [e]
    exact (bin01 b a hb ha).2.2
  · subst h
    refine ⟨?_, rfl⟩
    have e : (evalOpValue ">" (some a :: some b :: s2)).1 =
        if (truthy (some b) && !truthy (some a)) = true then 0 else 1 := rfl
    rw [e]
    split <;> omega
  · subst h
    refine ⟨?_, rfl⟩
    have e : (evalOpValue "<" (some a :: some b :: s2)).1 =
        if (some b : Option Nat) = some a then 1 else 0 := rfl
    rw [e]
    split <;> omega

/-- Stack invariant of the numeric replay: starting from a stack of defined
0/1 slots, a program passing the operand check keeps every pushed value in
0/1. -/
theorem evalPass_01 (values : List Nat) (hv : ∀ x ∈ values, x ≤ 1) :
    ∀ toks stack m, (∀ x ∈ stack, ∃ v, x = some v ∧ v ≤ 1) →
      tokCheck values.length toks stack.length = some m →
      ∀ idx,
        (∀ c ∈ (evalPass values toks idx stack).1, c.2 ≤ 1) ∧
        (∀ x ∈ (evalPass values toks idx stack).2, ∃ v, x = some v ∧ v ≤ 1) := by
  intro toks
  induction toks with
  | nil =>
    intro stack m hs hck idx
    exact ⟨fun c hc => by simp [evalPass] at hc, fun x hx => hs x (by simpa [evalPass] using hx)⟩
  | cons tk rest ih =>
    intro stack m hs hck idx
    cases tk with
    | num n =>
      rw [tokCheck] at hck
      by_cases hn : n < values.length
      · rw [if_pos hn] at hck
        have hval : values.get? n = some values[n] := by
          simp [List.get?_eq_getElem?, List.getElem?_eq_getElem hn]
        have hmem : values[n] ∈ values := List.getElem_mem hn
        have hstack : ∀ x ∈ values.get? n :: stack, ∃ v, x = some v ∧ v ≤ 1 := by
          intro x hx
          rcases List.mem_cons.mp hx with h | h
          · exact ⟨values[n], by rw [h, hval], hv _ hmem⟩
          · exact hs x h
        have hlen : (values.get? n :: stack).length = stack.length + 1 := rfl
        have := ih (values.get? n :: stack) m hstack (by rw [hlen]; exact hck) (idx + 1)
        exact ⟨fun c hc => this.1 c (by simpa [evalPass] using hc),
               fun x hx => this.2 x (by simpa [evalPass] using hx)⟩
      · rw [if_neg hn] at hck
        exact nomatch hck
    | str t =>
      rw [tokCheck] at hck
      by_cases hneg : t = "~"
      · rw [if_pos hneg] at hck
        by_cases h1 : 1 ≤ stack.length
        · rw [if_pos h1] at hck
          subst hneg
          cases stack with
          | nil => simp at h1
          | cons x s1 =>
            obtain ⟨hval, hrest⟩ := evalOpValue_neg x s1
            have hstack : ∀ y ∈ some (evalOpValue "~" (x :: s1)).1 :: (evalOpValue "~" (x :: s1)).2,
                ∃ v, y = some v ∧ v ≤ 1 := by
              intro y hy
              rcases List.mem_cons.mp hy with h | h
              · exact ⟨_, h, hval⟩
              · rw [hrest] at h
                exact hs y (List.mem_cons_of_mem _ h)
            have hlen2 : (some (evalOpValue "~" (x :: s1)).1 :: (evalOpValue "~" (x :: s1)).2).length
                = (x :: s1).length := by
              rw [hrest]
              rfl
            have := ih _ m hstack (by rw [hlen2]; exact hck) (idx + 1)
            refine ⟨fun c hc => ?_, fun y hy => this.2 y (by simpa [evalPass] using hy)⟩
            rw [evalPass] at hc
            rcases List.mem_cons.mp hc with h | h
            · rw [h]
              exact hval
            · exact this.1 c h
        · rw [if_neg h1] at hck
          exact nomatch hck
      · rw [if_neg hneg] at hck
        by_cases hop : isOpStr t = true
        · rw [if_pos hop] at hck
          by_cases h2 : 2 ≤ stack.length
          · rw [if_pos h2] at hck
            cases stack with
            | nil => simp at h2
            | cons x1 stail =>
              cases stail with
              | nil => simp at h2
              | cons x2 s2 =>
                obtain ⟨a, hxa, hva⟩ := hs x1 (List.mem_cons_self _ _)
                obtain ⟨b, hxb, hvb⟩ := hs x2 (List.mem_cons_of_mem _ (List.mem_cons_self _ _))
                subst hxa
                subst hxb
                obtain ⟨hval, hrest⟩ := evalOpValue_binary t hop hneg a b hva hvb s2
                have hstack : ∀ y ∈ some (evalOpValue t (some a :: some b :: s2)).1 ::
                    (evalOpValue t (some a :: some b :: s2)).2, ∃ v, y = some v ∧ v ≤ 1 := by
                  intro y hy
                  rcases List.mem_cons.mp hy with h | h
                  · exact ⟨_, h, hval⟩
                  · rw [hrest] at h
                    exact hs y (List.mem_cons_of_mem _ (List.mem_cons_of_mem _ h))
                have hlen2 : (some (evalOpValue t (some a :: some b :: s2)).1 ::
                    (evalOpValue t (some a :: some b :: s2)).2).length
                    = (some a :: some b :: s2).length - 1 := by
                  rw [hrest]
                  rfl
                have := ih _ m hstack (by rw [hlen2]; exact hck) (idx + 1)
                refine ⟨fun c hc => ?_, fun y hy => this.2 y (by simpa [evalPass] using hy)⟩
                rw [evalPass] at hc
                rcases List.mem_cons.mp hc with h | h
                · rw [h]
                  exact hval
                · exact this.1 c h
          · rw [if_neg h2] at hck
            exact nomatch hck
        · rw [if_neg hop] at hck
          exact nomatch hck

/-- Helper: `intToChar` is defined (and is T or F) on 0/1. -/
theorem intToChar_le_one (v : Nat) (h : v ≤ 1) :
    intToChar v = some "T" ∨ intToChar v = some "F" := by
  interval_cases v
  · exact Or.inr rfl
  · exact Or.inl rfl

/-- C10: during numeric evaluation of a program in which every variable
index is in range and every operator finds its required operands, every
value pushed onto the operating stack is 0 or 1, so every rendered cell
goes through a defined `intToChar` lookup and is exactly "T" or "F". -/
theorem C10_values_zero_one (values : List Nat) (toks : List RToken) (m : Nat)
    (hv : ∀ x ∈ values, x ≤ 1)
    (hck : tokCheck values.length toks 0 = some m) :
    (∀ c ∈ (evalPass values toks 0 []).1, c.2 ≤ 1 ∧
        (intToChar c.2 = some "T" ∨ intToChar c.2 = some "F")) ∧
    (∀ x ∈ (evalPass values toks 0 []).2, ∃ v, x = some v ∧ v ≤ 1 ∧
        (intToChar v = some "T" ∨ intToChar v = some "F")) := by
  have base := evalPass_01 values hv toks [] m (fun x hx => by simp at hx)
    (by simpa using hck) 0
  refine ⟨fun c hc => ?_, fun x hx => ?_⟩
  · have h1 := base.1 c hc
    exact ⟨h1, intToChar_le_one _ h1⟩
  · obtain ⟨v, hxv, hv1⟩ := base.2 x hx
    exact ⟨v, hxv, hv1, intToChar_le_one _ hv1⟩

/-- Witness for C10 at the compiled worked example under an explicit 0/1
assignment. -/
theorem C10_witness :
    (∀ x ∈ [0, 1, 0, 1, 0], x ≤ 1) ∧
    tokCheck [0, 1, 0, 1, 0].length (convertRPN rpnExample) 0 = some 1 ∧
    ((∀ c ∈ (evalPass [0, 1, 0, 1, 0] (convertRPN rpnExample) 0 []).1, c.2 ≤ 1 ∧
        (intToChar c.2 = some "T" ∨ intToChar c.2 = some "F")) ∧
    (∀ x ∈ (evalPass [0, 1, 0, 1, 0] (convertRPN rpnExample) 0 []).2, ∃ v, x = some v ∧ v ≤ 1 ∧
        (intToChar v = some "T" ∨ intToChar v = some "F"))) :=
  ⟨by decide, by decide,
    C10_values_zero_one [0, 1, 0, 1, 0] (convertRPN rpnExample) 1 (by decide) (by decide)⟩

/-- Witness for C7 at the concrete operands l = 1, r = 0. -/
theorem C7_witness :
    (1 : Nat) ≤ 1 ∧ (0 : Nat) ≤ 1 ∧
    ((∀ s, evalOpValue "~" (some 0 :: s) = (1, s)) ∧
    (∀ s, evalOpValue "&" (some 0 :: some 1 :: s) = (0, s)) ∧
    (∀ s, evalOpValue "|" (some 0 :: some 1 :: s) = (1, s)) ∧
    (∀ s, evalOpValue "^" (some 0 :: some 1 :: s) = (1, s)) ∧
    (∀ s, evalOpValue ">" (some 0 :: some 1 :: s) = (0, s)) ∧
    (∀ s, evalOpValue "<" (some 0 :: some 1 :: s) = (0, s))) := by
  have h := C7_operator_semantics 1 0 (by decide) (by decide)
  simp only [show ((1 : Nat) = 1 ∧ (0 : Nat) = 1) = False by simp,
    show ((1 : Nat) = 1 ∨ (0 : Nat) = 1) = True by simp] at h
  exact ⟨by decide, by decide, by
    obtain ⟨h1, h2, h3, h4, h5, h6⟩ := h
    refine ⟨fun s => ?_, fun s => ?_, fun s => ?_, fun s => ?_, fun s => ?_, fun s => ?_⟩
    · simpa using h1 s
    · simpa using h2 s
    · simpa using h3 s
    · simpa using h4 s
    · simpa using h5 s
    · simpa using h6 s⟩

/-- Helper: the value of a digit character round-trips. -/
theorem digitVal_digitChar (d : Nat) (h : d < 10) : digitVal (Nat.digitChar d) = d := by
  interval_cases d <;> decide

/-- Helper: unfold `digitsVal` one character. -/
theorem digitsVal_cons (x : Char) (ds : List Char) :
    digitsVal (x :: ds) = ds.foldl (fun acc c => acc * 10 + digitVal c) (digitVal x) := by
  simp [digitsVal]

/-- Correctness of the core digit emitter: with enough fuel, the digits it
prepends evaluate back to the number. -/
theorem toDigitsCore_val :
    ∀ fuel n ds, n < fuel →
      digitsVal (Nat.toDigitsCore 10 fuel n ds) =
        ds.foldl (fun acc c => acc * 10 + digitVal c) n := by
  intro fuel
  induction fuel with
  | zero => intro n ds h; omega
  | succ fuel ih =>
    intro n ds h
    simp only [Nat.toDigitsCore]
    by_cases hz : n / 10 = 0
    · rw [if_pos hz]
      have hlt : n < 10 := by omega
      rw [digitsVal_cons, digitVal_digitChar _ (Nat.mod_lt _ (by omega)), Nat.mod_eq_of_lt hlt]
    · rw [if_neg hz]
      have hfuel : n / 10 < fuel := by omega
      rw [ih _ _ hfuel, List.foldl_cons, digitVal_digitChar _ (Nat.mod_lt _ (by omega))]
      have hn : n / 10 * 10 + n % 10 = n := by omega
      rw [hn]

/-- Decimal digits of `n` evaluate back to `n`. -/
theorem digitsVal_toDigits (n : Nat) : digitsVal (Nat.toDigits 10 n) = n := by
  rw [Nat.toDigits, toDigitsCore_val (n + 1) n [] (by omega)]
  rfl

/-- `Nat.repr` is injective. -/
theorem repr_inj (m n : Nat) (h : Nat.repr m = Nat.repr n) : m = n := by
  have hd : Nat.toDigits 10 m = Nat.toDigits 10 n := by
    have := congrArg String.data h
    simpa [Nat.repr, List.asString] using this
  have h1 := digitsVal_toDigits m
  rw [hd, digitsVal_toDigits] at h1
  exact h1.symm

/-- The generated code-variable names `"var" ++ Nat.repr k` are pairwise
distinct. -/
theorem var_name_inj (a b : Nat) (h : "var" ++ Nat.repr a = "var" ++ Nat.repr b) : a = b := by
  have hd := congrArg String.data h
  simp only [String.data_append] at hd
  have hlist := List.append_cancel_left hd
  exact repr_inj a b (by
    have : String.mk (Nat.repr a).data = String.mk (Nat.repr b).data := congrArg String.mk hlist
    simpa using this)

/-- A generated code-variable name never equals a one-character string. -/
theorem var_name_ne (s t : String) (h : t.length = 1) : "var" ++ s ≠ t := by
  intro he
  have hlen := congrArg String.length he
  rw [String.length_append, h] at hlen
  have h3 : ("var" : String).length = 3 := by decide
  omega

/-- A generated code-variable name is never an operator token. -/
theorem isOpStr_var_name (s : String) : isOpStr ("var" ++ s) = false := by
  simp only [isOpStr, Bool.or_eq_false_iff, decide_eq_false_iff_not]
  exact ⟨⟨⟨⟨⟨var_name_ne s "~" (by decide), var_name_ne s "&" (by decide)⟩,
    var_name_ne s "|" (by decide)⟩, var_name_ne s "^" (by decide)⟩,
    var_name_ne s ">" (by decide)⟩, var_name_ne s "<" (by decide)⟩

/-- Helper: a failed lookup means the key is absent. -/
theorem lookup_none_not_key (l : List (Char × String)) (c : Char)
    (h : List.lookup c l = none) : c ∉ l.map Prod.fst := by
  rw [List.lookup_eq_none_iff] at h
  intro hm
  obtain ⟨p, hp, hpc⟩ := List.mem_map.mp hm
  have := h p hp
  rw [hpc] at this
  simp at this

/-- Helper: a successful lookup means the key is present. -/
theorem lookup_some_key (l : List (Char × String)) (c : Char) (v : String)
    (h : List.lookup c l = some v) : c ∈ l.map Prod.fst := by
  have hs : (List.lookup c l).isSome := by rw [h]; rfl
  rw [List.lookup_isSome_iff] at hs
  obtain ⟨p, hp, hpc⟩ := hs
  have hcp : c = p.1 := by simp at hpc; exact hpc
  exact List.mem_map.mpr ⟨p, hp, hcp.symm⟩

/-- Helper: with duplicate-free keys, membership determines lookup. -/
theorem lookup_of_mem_nodup {α β : Type} [BEq α] [LawfulBEq α]
    (l : List (α × β)) (c : α) (v : β)
    (hn : (l.map Prod.fst).Nodup) (hm : (c, v) ∈ l) : List.lookup c l = some v := by
  induction l with
  | nil => simp at hm
  | cons p rest ih =>
    rw [List.map_cons, List.nodup_cons] at hn
    rcases List.mem_cons.mp hm with h | h
    · rw [← h]
      exact List.lookup_cons_self
    · have hkey : c ∈ rest.map Prod.fst := List.mem_map.mpr ⟨(c, v), h, rfl⟩
      have hne : (c == p.1) = false := by
        apply beq_false_of_ne
        intro he
        rw [he] at hkey
        exact hn.1 hkey
      rw [show p = (p.1, p.2) from rfl, List.lookup_cons, hne]
      exact ih hn.2 h

/-- Dichotomy of one scan step on the variable maps: either all four map
fields are untouched (parenthesis, operator, or already-seen variable), or
the token is a fresh variable and all four fields are extended with the
pre-incremented counter's name. -/
theorem step_maps (σ : CState) (c : Char) (σ' : CState) (h : step σ c = some σ') :
    ((σ'.rpn.mathToCodeVars = σ.rpn.mathToCodeVars ∧
      σ'.rpn.codeToMathVars = σ.rpn.codeToMathVars ∧
      σ'.rpn.codeVars = σ.rpn.codeVars ∧
      σ'.rpn.variableCount = σ.rpn.variableCount) ∧
     (isOp c = true ∨ c = '(' ∨ c = ')' ∨
      List.lookup c σ.rpn.mathToCodeVars ≠ none)) ∨
    (isOp c = false ∧ c ≠ '(' ∧ c ≠ ')' ∧
     List.lookup c σ.rpn.mathToCodeVars = none ∧
     σ'.rpn.mathToCodeVars =
       σ.rpn.mathToCodeVars ++ [(c, "var" ++ Nat.repr (σ.rpn.variableCount + 1))] ∧
     σ'.rpn.codeToMathVars =
       σ.rpn.codeToMathVars ++ [("var" ++ Nat.repr (σ.rpn.variableCount + 1), c)] ∧
     σ'.rpn.codeVars = σ.rpn.codeVars ++ ["var" ++ Nat.repr (σ.rpn.variableCount + 1)] ∧
     σ'.rpn.variableCount = σ.rpn.variableCount + 1) := by
  by_cases h1 : c = '('
  · left
    simp only [step, if_pos h1] at h
    obtain rfl := Option.some.inj h
    exact ⟨⟨rfl, rfl, rfl, rfl⟩, Or.inr (Or.inl h1)⟩
  · by_cases h2 : c = ')'
    · cases hp : σ.pend σ.parenLevel with
      | none =>
        simp only [step, if_neg h1, if_pos h2, hp] at h
        exact nomatch h
      | some stk =>
        left
        simp only [step, if_neg h1, if_pos h2, hp] at h
        obtain rfl := Option.some.inj h
        exact ⟨⟨rfl, rfl, rfl, rfl⟩, Or.inr (Or.inr (Or.inl h2))⟩
    · by_cases h3 : isOp c = true
      · left
        refine ⟨?_, Or.inl h3⟩
        cases hp : σ.pend σ.parenLevel with
        | none =>
          simp only [step, if_neg h1, if_neg h2, h3, if_true, hp] at h
          obtain rfl := Option.some.inj h
          exact ⟨rfl, rfl, rfl, rfl⟩
        | some stk =>
          by_cases he : stk.isEmpty
          · simp only [step, if_neg h1, if_neg h2, h3, if_true, hp, he] at h
            obtain rfl := Option.some.inj h
            exact ⟨rfl, rfl, rfl, rfl⟩
          · have he2 : stk.isEmpty = false := by
              cases hb : stk.isEmpty
              · rfl
              · exact absurd hb he
            simp only [step, if_neg h1, if_neg h2, h3, if_true, hp, he2,
              Bool.false_eq_true, if_false] at h
            obtain rfl := Option.some.inj h
            exact ⟨rfl, rfl, rfl, rfl⟩
      · have hfalse : isOp c = false := by
          cases hb : isOp c
          · rfl
          · exact absurd hb h3
        cases hl : List.lookup c σ.rpn.mathToCodeVars with
        | some cv =>
          left
          simp only [step, if_neg h1, if_neg h2, hfalse, Bool.false_eq_true, if_false, hl] at h
          obtain rfl := Option.some.inj h
          exact ⟨⟨rfl, rfl, rfl, rfl⟩, Or.inr (Or.inr (Or.inr (fun hh => nomatch hh)))⟩
        | none =>
          right
          simp only [step, if_neg h1, if_neg h2, hfalse, Bool.false_eq_true, if_false, hl] at h
          obtain rfl := Option.some.inj h
          exact ⟨hfalse, h1, h2, rfl, rfl, rfl, rfl, rfl⟩

/-- Each scan step preserves the map invariant. -/
theorem step_MapsInv (σ : CState) (c : Char) (σ' : CState) (h : step σ c = some σ')
    (hm : MapsInv σ.rpn) : MapsInv σ'.rpn := by
  rcases step_maps σ c σ' h with ⟨⟨e1, e2, e3, e4⟩, _⟩ | ⟨hv, hp1, hp2, hl, e1, e2, e3, e4⟩
  · obtain ⟨m1, m2, m3, m4⟩ := hm
    exact ⟨by rw [e3, e4, m1], by rw [e1, e3, m2], by rw [e2, e1, m3], by rw [e1]; exact m4⟩
  · obtain ⟨m1, m2, m3, m4⟩ := hm
    refine ⟨?_, ?_, ?_, ?_⟩
    · rw [e3, e4, m1, List.range_succ, List.map_append]
      simp
    · rw [e1, e3, List.map_append, m2]
      simp [m1]
    · rw [e2, e1, List.map_append, m3]
      simp
    · rw [e1, List.map_append]
      rw [List.nodup_append]
      exact ⟨m4, List.nodup_singleton _,
        fun x hx hx1 => by
          simp only [List.map_cons, List.map_nil, List.mem_singleton] at hx1
          rw [hx1] at hx
          exact lookup_none_not_key _ _ hl hx⟩

/-- The whole scan preserves the map invariant. -/
theorem runFrom_MapsInv :
    ∀ l σ σ', runFrom σ l = some σ' → MapsInv σ.rpn → MapsInv σ'.rpn := by
  intro l
  induction l with
  | nil =>
    intro σ σ' h hm
    obtain rfl := Option.some.inj h
    exact hm
  | cons c cs ih =>
    intro σ σ' h hm
    rw [runFrom] at h
    cases hs : step σ c with
    | none => rw [hs] at h; exact nomatch h
    | some σ1 =>
      rw [hs] at h
      exact ih σ1 σ' h (step_MapsInv σ c σ1 hs hm)

/-- The keys recorded by a scan are exactly the prior keys plus the
non-operator, non-parenthesis characters of the consumed input. -/
theorem runFrom_keys :
    ∀ l σ σ', runFrom σ l = some σ' →
      ∀ c, c ∈ σ'.rpn.mathToCodeVars.map Prod.fst ↔
        (c ∈ σ.rpn.mathToCodeVars.map Prod.fst ∨
          (c ∈ l ∧ isOp c = false ∧ c ≠ '(' ∧ c ≠ ')')) := by
  intro l
  induction l with
  | nil =>
    intro σ σ' h c
    obtain rfl := Option.some.inj h
    simp
  | cons x cs ih =>
    intro σ σ' h c
    rw [runFrom] at h
    cases hs : step σ x with
    | none => rw [hs] at h; exact nomatch h
    | some σ1 =>
      rw [hs] at h
      rw [ih σ1 σ' h c]
      rcases step_maps σ x σ1 hs with ⟨⟨e1, _, _, _⟩, hkind⟩ | ⟨hv, hp1, hp2, hl, e1, _, _, _⟩
      · rw [e1]
        constructor
        · rintro (hmem | hrest)
          · exact Or.inl hmem
          · exact Or.inr ⟨List.mem_cons_of_mem _ hrest.1, hrest.2⟩
        · rintro (hmem | ⟨hcl, hvc, hc1, hc2⟩)
          · exact Or.inl hmem
          · rcases List.mem_cons.mp hcl with hcx | hcx
            · subst hcx
              rcases hkind with hk | hk | hk | hk
              · rw [hk] at hvc; exact nomatch hvc
              · exact absurd hk hc1
              · exact absurd hk hc2
              · cases hlk : List.lookup c σ.rpn.mathToCodeVars with
                | none => exact absurd hlk hk
                | some v => exact Or.inl (lookup_some_key _ _ _ hlk)
            · exact Or.inr ⟨hcx, hvc, hc1, hc2⟩
      · rw [e1, List.map_append]
        constructor
        · rintro (hmem | hrest)
          · rcases List.mem_append.mp hmem with hm | hm
            · exact Or.inl hm
            · simp only [List.map_cons, List.map_nil, List.mem_singleton] at hm
              subst hm
              exact Or.inr ⟨List.mem_cons_self _ _, hv, hp1, hp2⟩
          · exact Or.inr ⟨List.mem_cons_of_mem _ hrest.1, hrest.2⟩
        · rintro (hmem | ⟨hcl, hvc, hc1, hc2⟩)
          · exact Or.inl (List.mem_append.mpr (Or.inl hmem))
          · rcases List.mem_cons.mp hcl with hcx | hcx
            · subst hcx
              exact Or.inl (List.mem_append.mpr (Or.inr (by simp)))
            · exact Or.inr ⟨hcx, hvc, hc1, hc2⟩

/-- A later occurrence of a known variable reuses its identifier and only
emits it: the maps are untouched. -/
theorem step_var_reuse (σ : CState) (c : Char) (v : String)
    (hv : isOp c = false) (h1 : c ≠ '(') (h2 : c ≠ ')')
    (hl : List.lookup c σ.rpn.mathToCodeVars = some v) :
    step σ c = some { σ with rpn := { σ.rpn with data := σ.rpn.data ++ [v] } } := by
  simp only [step, if_neg h1, if_neg h2, hv, Bool.false_eq_true, if_false, hl]

/-- Decompose a successful compilation into its scan and final drain. -/
theorem generateRPN_split (s : String) (rpn : RPN) (h : generateRPN s = some rpn) :
    ∃ σ' stk, runFrom initState (trimJS s.data) = some σ' ∧
      σ'.pend σ'.parenLevel = some stk ∧
      rpn = { σ'.rpn with data := σ'.rpn.data ++ stk.map Char.toString } := by
  rw [generateRPN] at h
  cases hr : runFrom initState (trimJS s.data) with
  | none => rw [hr] at h; exact nomatch h
  | some σ' =>
    rw [hr] at h
    simp only [Option.some_bind] at h
    cases hp : σ'.pend σ'.parenLevel with
    | none => rw [hp] at h; exact nomatch h
    | some stk =>
      rw [hp] at h
      exact ⟨σ', stk, rfl, hp, (Option.some.inj h).symm⟩

/-- C8: on every successful compilation the k-th distinct variable (in
first-occurrence order) gets identifier `"var" ++ k` with a pre-incremented
counter starting at 0 (so the first gets var1); the symbol-to-identifier and
identifier-to-symbol maps are mutually inverse bijections (duplicate-free
keys on both sides, each entry looked up both ways) over exactly the
non-operator, non-parenthesis characters encountered in the trimmed input;
and a later occurrence of a known symbol reuses its identifier without
touching the maps. -/
theorem C8_variable_identifiers (s : String) (rpn : RPN) (h : generateRPN s = some rpn) :
    rpn.codeVars = (List.range rpn.variableCount).map (fun k => "var" ++ Nat.repr (k + 1)) ∧
    rpn.mathToCodeVars.map Prod.snd = rpn.codeVars ∧
    rpn.codeToMathVars = rpn.mathToCodeVars.map (fun p => (p.2, p.1)) ∧
    (rpn.mathToCodeVars.map Prod.fst).Nodup ∧
    rpn.codeVars.Nodup ∧
    rpn.mathToCodeVars.length = rpn.variableCount ∧
    (∀ c v, (c, v) ∈ rpn.mathToCodeVars →
        List.lookup c rpn.mathToCodeVars = some v ∧
        List.lookup v rpn.codeToMathVars = some c) ∧
    (∀ c, c ∈ rpn.mathToCodeVars.map Prod.fst ↔
        (c ∈ trimJS s.data ∧ isOp c = false ∧ c ≠ '(' ∧ c ≠ ')')) ∧
    (∀ σ c v, isOp c = false → c ≠ '(' → c ≠ ')' →
        List.lookup c σ.rpn.mathToCodeVars = some v →
        step σ c = some { σ with rpn := { σ.rpn with data := σ.rpn.data ++ [v] } }) := by
  obtain ⟨σ', stk, hr, hp, hrpn⟩ := generateRPN_split s rpn h
  have hminit : MapsInv initState.rpn := by
    refine ⟨rfl, rfl, rfl, ?_⟩
    simp [initState]
  have hminv : MapsInv σ'.rpn := runFrom_MapsInv _ _ _ hr hminit
  have hfields : rpn.codeVars = σ'.rpn.codeVars ∧ rpn.mathToCodeVars = σ'.rpn.mathToCodeVars ∧
      rpn.codeToMathVars = σ'.rpn.codeToMathVars ∧ rpn.variableCount = σ'.rpn.variableCount := by
    rw [hrpn]
    exact ⟨rfl, rfl, rfl, rfl⟩
  obtain ⟨f1, f2, f3, f4⟩ := hfields
  obtain ⟨m1, m2, m3, m4⟩ := hminv
  have hm1 : rpn.codeVars = (List.range rpn.variableCount).map (fun k => "var" ++ Nat.repr (k + 1)) := by
    rw [f1, f4, m1]
  have hm2 : rpn.mathToCodeVars.map Prod.snd = rpn.codeVars := by
    rw [f2, f1, m2]
  have hm3 : rpn.codeToMathVars = rpn.mathToCodeVars.map (fun p => (p.2, p.1)) := by
    rw [f3, f2, m3]
  have hm4 : (rpn.mathToCodeVars.map Prod.fst).Nodup := by
    rw [f2]
    exact m4
  have hcvnd : rpn.codeVars.Nodup := by
    rw [hm1]
    refine List.Nodup.map ?_ (List.nodup_range _)
    intro a b hab
    have := var_name_inj (a + 1) (b + 1) hab
    omega
  refine ⟨hm1, hm2, hm3, hm4, hcvnd, ?_, ?_, ?_, ?_⟩
  · have hlen1 : rpn.mathToCodeVars.length = rpn.codeVars.length := by
      rw [← hm2, List.length_map]
    rw [hlen1, hm1, List.length_map, List.length_range]
  · intro c v hm
    constructor
    · exact lookup_of_mem_nodup _ _ _ hm4 hm
    · have hkeys : rpn.codeToMathVars.map Prod.fst = rpn.mathToCodeVars.map Prod.snd := by
        rw [hm3, List.map_map]
        rfl
      have hnd : (rpn.codeToMathVars.map Prod.fst).Nodup := by
        rw [hkeys, hm2]
        exact hcvnd
      have hmem : (v, c) ∈ rpn.codeToMathVars := by
        rw [hm3]
        exact List.mem_map.mpr ⟨(c, v), hm, rfl⟩
      exact lookup_of_mem_nodup _ _ _ hnd hmem
  · intro c
    have hkeys := runFrom_keys _ _ _ hr c
    rw [f2, hkeys]
    simp [initState]
  · intro σ c v hv h1 h2 hl
    exact step_var_reuse σ c v hv h1 h2 hl

/-- Witness for C8 on the concrete input `p&q|p` (which reuses `p`). -/
theorem C8_witness :
    generateRPN "p&q|p" = some
      { data := ["var1", "var2", "&", "var1", "|"],
        codeVars := ["var1", "var2"],
        mathToCodeVars := [('p', "var1"), ('q', "var2")],
        codeToMathVars := [("var1", 'p'), ("var2", 'q')],
        variableCount := 2 } ∧
    (["var1", "var2"] : List String) =
      (List.range 2).map (fun k => "var" ++ Nat.repr (k + 1)) :=
  ⟨by decide, (C8_variable_identifiers "p&q|p"
      { data := ["var1", "var2", "&", "var1", "|"],
        codeVars := ["var1", "var2"],
        mathToCodeVars := [('p', "var1"), ('q', "var2")],
        codeToMathVars := [("var1", 'p'), ("var2", 'q')],
        variableCount := 2 } (by decide)).1⟩

/-- The RPN checker splits over concatenation. -/
theorem rpnCheck_append (a b : List String) (h : Nat) :
    rpnCheck (a ++ b) h = (rpnCheck a h).bind (fun k => rpnCheck b k) := by
  induction a generalizing h with
  | nil => rfl
  | cons t rest ih =>
    rw [List.cons_append, rpnCheck, rpnCheck]
    by_cases h1 : t = "~"
    · rw [if_pos h1, if_pos h1]
      by_cases h2 : 1 ≤ h
      · rw [if_pos h2, if_pos h2, ih]
      · rw [if_neg h2, if_neg h2]
        rfl
    · rw [if_neg h1, if_neg h1]
      by_cases h3 : isOpStr t = true
      · rw [if_pos h3, if_pos h3]
        by_cases h2 : 2 ≤ h
        · rw [if_pos h2, if_pos h2, ih]
        · rw [if_neg h2, if_neg h2]
          rfl
      · rw [if_neg h3, if_neg h3, ih]

/-- The scan splits over concatenation of inputs. -/
theorem runFrom_append (a b : List Char) (σ : CState) :
    runFrom σ (a ++ b) = (runFrom σ a).bind (fun σ2 => runFrom σ2 b) := by
  induction a generalizing σ with
  | nil => rfl
  | cons c rest ih =>
    rw [List.cons_append, runFrom, runFrom]
    cases step σ c with
    | none => rfl
    | some σ1 =>
      simp only [Option.some_bind]
      exact ih σ1

/-- A one-character scan is a single step. -/
theorem runFrom_single (σ : CState) (c : Char) : runFrom σ [c] = step σ c := by
  rw [runFrom]
  cases step σ c <;> rfl

/-- Helper: one-character strings determine their character. -/
theorem char_toString_inj (a b : Char) (h : Char.toString a = Char.toString b) : a = b := by
  have := congrArg String.data h
  simpa [Char.toString, String.singleton] using this

/-- Helper: a one-character string equals "~" iff the character is `~`. -/
theorem toString_eq_tilde (c : Char) : Char.toString c = "~" ↔ c = '~' := by
  constructor
  · intro h
    exact char_toString_inj c '~' (by rw [h]; decide)
  · intro h
    rw [h]
    decide

/-- A one-character string token is an operator string iff the character is
an operator. -/
theorem isOpStr_toString (c : Char) : isOpStr (Char.toString c) = isOp c := by
  have key : ∀ d : Char, decide (Char.toString c = Char.toString d) = decide (c = d) :=
    fun d => decide_eq_decide.mpr ⟨char_toString_inj c d, fun h => by rw [h]⟩
  have h1 : ("~" : String) = Char.toString '~' := by decide
  have h2 : ("&" : String) = Char.toString '&' := by decide
  have h3 : ("|" : String) = Char.toString '|' := by decide
  have h4 : ("^" : String) = Char.toString '^' := by decide
  have h5 : (">" : String) = Char.toString '>' := by decide
  have h6 : ("<" : String) = Char.toString '<' := by decide
  rw [isOpStr, isOp, h1, h2, h3, h4, h5, h6, key, key, key, key, key, key]

/-- Every operator's precedence is at most `~`'s (5), so nothing is ever
popped by a `~`. -/
theorem priority_le_five (c : Char) (h : isOp c = true) : priority c ≤ 5 := by
  simp only [isOp, Bool.or_eq_true, decide_eq_true_eq] at h
  rcases h with ((((h | h) | h) | h) | h) | h <;> subst h <;> decide

/-- Helper: `takeWhile`/`dropWhile` under an everywhere-false predicate. -/
theorem tw_nil {p : Char → Bool} (l : List Char) (h : ∀ x ∈ l, ¬ p x = true) :
    l.takeWhile p = [] ∧ l.dropWhile p = l := by
  cases l with
  | nil => exact ⟨rfl, rfl⟩
  | cons x rest =>
    have hx := h x (List.mem_cons_self _ _)
    exact ⟨List.takeWhile_cons_of_neg hx, List.dropWhile_cons_of_neg hx⟩

/-- Helper: `dropWhile` only keeps elements of the list. -/
theorem mem_of_mem_dropWhile {p : Char → Bool} (l : List Char) (x : Char)
    (h : x ∈ l.dropWhile p) : x ∈ l := by
  induction l with
  | nil => simp at h
  | cons y rest ih =>
    by_cases hy : p y = true
    · rw [List.dropWhile_cons_of_pos hy] at h
      exact List.mem_cons_of_mem _ (ih h)
    · rw [List.dropWhile_cons_of_neg hy] at h
      exact h

/-- A non-operator token is an operand push for the checker. -/
theorem rpnCheck_var (v : String) (hv : isOpStr v = false) (rest : List String) (h : Nat) :
    rpnCheck (v :: rest) h = rpnCheck rest (h + 1) := by
  have hne : v ≠ "~" := by
    intro he
    rw [he] at hv
    exact nomatch hv
  rw [rpnCheck, if_neg hne, if_neg (by rw [hv]; exact fun hh => nomatch hh)]

/-- An operator token can only check at a positive stack height. -/
theorem rpnCheck_cons_pos (t : String) (rest : List String) (n m : Nat)
    (ht : t = "~" ∨ isOpStr t = true)
    (h : rpnCheck (t :: rest) n = some m) : 1 ≤ n := by
  by_contra hn
  rcases ht with ht | ht
  · rw [rpnCheck, if_pos ht, if_neg hn] at h
    exact nomatch h
  · by_cases h1 : t = "~"
    · rw [rpnCheck, if_pos h1, if_neg hn] at h
      exact nomatch h
    · rw [rpnCheck, if_neg h1, if_pos ht, if_neg (by omega)] at h
      exact nomatch h

/-- Helper: a successful lookup yields a member pair. -/
theorem mem_of_lookup_eq_some {l : List (Char × String)} {c : Char} {v : String}
    (h : List.lookup c l = some v) : (c, v) ∈ l := by
  induction l with
  | nil => exact nomatch h
  | cons p rest ih =>
    rw [show p = (p.1, p.2) from rfl, List.lookup_cons] at h
    cases hc : (c == p.1) with
    | true =>
      rw [hc] at h
      have h1 : c = p.1 := by simpa using hc
      have h2 : v = p.2 := (Option.some.inj h).symm
      rw [h1, h2]
      exact List.mem_cons_self _ _
    | false =>
      rw [hc] at h
      exact List.mem_cons_of_mem _ (ih h)

/-- Reading the just-updated level. -/
theorem updateF_self (f : Int → Option (List Char)) (k : Int) (v : List Char) :
    updateF f k v k = some v := if_pos rfl

/-- Reading an untouched level. -/
theorem updateF_ne (f : Int → Option (List Char)) (k : Int) (v : List Char)
    (l : Int) (h : l ≠ k) : updateF f k v l = f l := if_neg h

/-- The `(` step just increments the nesting level. -/
theorem step_lparen_eq (σ : CState) :
    step σ '(' = some { σ with parenLevel := σ.parenLevel + 1 } := rfl

/-- The operator step in closed form: emit the maximal strictly-higher
priority prefix of the current level's stack (empty or missing stacks
behave as empty), then push the operator. -/
theorem step_op_eq (σ : CState) (c : Char) (hc : isOp c = true) :
    step σ c = some { σ with
      rpn := { σ.rpn with data := σ.rpn.data ++ drainWord ((pendCur σ).takeWhile (fun t => priority c < priority t)) },
      pend := updateF σ.pend σ.parenLevel (c :: (pendCur σ).dropWhile (fun t => priority c < priority t)) } := by
  obtain ⟨h1, h2⟩ := isOp_ne_paren hc
  cases hp : σ.pend σ.parenLevel with
  | none =>
    simp [step, pendCur, drainWord, h1, h2, hc, hp]
  | some stk =>
    cases stk with
    | nil => simp [step, pendCur, drainWord, h1, h2, hc, hp]
    | cons d rest =>
      simp only [step, if_neg h1, if_neg h2, hc, if_true, hp, List.isEmpty_cons,
        Bool.false_eq_true, if_false, pendCur, drainWord, Option.getD_some]

/-- The variable step in closed form: exactly one non-operator token is
appended to the output; pending stacks and level are untouched. -/
theorem step_var_eq (σ : CState) (c : Char) (hv : isOp c = false)
    (h1 : c ≠ '(') (h2 : c ≠ ')') (hV : VOK σ) :
    ∃ v σ', step σ c = some σ' ∧ isOpStr v = false ∧
      σ'.rpn.data = σ.rpn.data ++ [v] ∧ σ'.pend = σ.pend ∧
      σ'.parenLevel = σ.parenLevel ∧ VOK σ' := by
  cases hl : List.lookup c σ.rpn.mathToCodeVars with
  | some v =>
    refine ⟨v, _, step_var_reuse σ c v hv h1 h2 hl,
      hV _ (mem_of_lookup_eq_some hl), rfl, rfl, rfl, ?_⟩
    intro p hp
    exact hV p hp
  | none =>
    refine ⟨"var" ++ Nat.repr (σ.rpn.variableCount + 1),
      { σ with rpn := { σ.rpn with
          data := σ.rpn.data ++ ["var" ++ Nat.repr (σ.rpn.variableCount + 1)],
          codeVars := σ.rpn.codeVars ++ ["var" ++ Nat.repr (σ.rpn.variableCount + 1)],
          mathToCodeVars := σ.rpn.mathToCodeVars ++ [(c, "var" ++ Nat.repr (σ.rpn.variableCount + 1))],
          codeToMathVars := σ.rpn.codeToMathVars ++ [("var" ++ Nat.repr (σ.rpn.variableCount + 1), c)],
          variableCount := σ.rpn.variableCount + 1 } },
      ?_, isOpStr_var_name _, rfl, rfl, rfl, ?_⟩
    · simp only [step, if_neg h1, if_neg h2, hv, Bool.false_eq_true, if_false, hl]
    · intro p hp
      rcases List.mem_append.mp hp with hm | hm
      · exact hV p hm
      · simp only [List.mem_singleton] at hm
        rw [hm]
        exact isOpStr_var_name _

/-- Inversion of a successful `)` step: the current level's stack existed,
was drained to the output, reset to empty, and the level decremented. -/
theorem step_rparen_inv (σ σ' : CState) (h : step σ ')' = some σ') :
    ∃ stk, σ.pend σ.parenLevel = some stk ∧
      σ'.rpn.data = σ.rpn.data ++ drainWord stk ∧
      σ'.rpn.mathToCodeVars = σ.rpn.mathToCodeVars ∧
      σ'.pend = updateF σ.pend σ.parenLevel [] ∧
      σ'.parenLevel = σ.parenLevel - 1 := by
  cases hp : σ.pend σ.parenLevel with
  | none =>
    simp only [step, if_neg (by decide : ¬(')' : Char) = '('), if_pos rfl, hp] at h
    exact nomatch h
  | some stk =>
    simp only [step, if_neg (by decide : ¬(')' : Char) = '('), if_pos rfl, hp] at h
    obtain rfl := Option.some.inj h
    exact ⟨stk, rfl, rfl, rfl, rfl, rfl⟩

/-- Main invariant of the shunting-yard scan on well-formed sub-expressions:
starting at any state whose output checks to height `a` and whose current
pending stack drains from `a + 1` to `m ≥ 1`, a successful scan of a
well-formed expression returns to the same nesting level with the output
and new pending stack drains checking to the same `m`, levels above the
current one trivial, levels below untouched, and defined stacks staying
defined. -/
theorem wf_run {s : List Char} (hs : WFProp s) :
    ∀ σ σ' h a m,
      runFrom σ s = some σ' →
      INVhi σ → SOK σ → VOK σ →
      rpnCheck σ.rpn.data h = some a →
      rpnCheck (drainWord (pendCur σ)) (a + 1) = some m →
      1 ≤ m →
      σ'.parenLevel = σ.parenLevel ∧ INVhi σ' ∧ SOK σ' ∧ VOK σ' ∧
      (∀ l : Int, l < σ.parenLevel → σ'.pend l = σ.pend l) ∧
      (∀ l x, σ.pend l = some x → ∃ y, σ'.pend l = some y) ∧
      ∃ a2, rpnCheck σ'.rpn.data h = some a2 ∧
        rpnCheck (drainWord (pendCur σ')) a2 = some m := by
  induction hs with
  | var c hop hcp1 hcp2 =>
    intro σ σ' h a m hrun hI hS hV hd hsk hm
    rw [runFrom_single] at hrun
    obtain ⟨v, σ2, hstep, hvop, hdata, hpend, hlevel, hV2⟩ :=
      step_var_eq σ c hop hcp1 hcp2 hV
    rw [hstep] at hrun
    obtain rfl := Option.some.inj hrun
    have hpcur : pendCur σ2 = pendCur σ := by
      rw [pendCur, pendCur, hpend, hlevel]
    refine ⟨hlevel, ?_, ?_, hV2, ?_, ?_, a + 1, ?_, ?_⟩
    · intro l hl
      rw [hlevel] at hl
      rw [hpend]
      exact hI l hl
    · intro l
      rw [hpend]
      exact hS l
    · intro l _
      rw [hpend]
    · intro l x hx
      rw [hpend]
      exact ⟨x, hx⟩
    · rw [hdata, rpnCheck_append, hd, Option.some_bind, rpnCheck_var v hvop]
      rfl
    · rw [hpcur]
      exact hsk
  | neg hsub ih =>
    intro σ σ' h a m hrun hI hS hV hd hsk hm
    rw [runFrom, step_op_eq σ '~' (by decide), Option.some_bind] at hrun
    have htw := tw_nil (p := fun t => decide (priority '~' < priority t)) (pendCur σ)
      (fun x hx => by
        have h5 := priority_le_five x (hS σ.parenLevel x hx)
        have h7 : priority '~' = 5 := rfl
        simp only [decide_eq_true_eq]
        omega)
    rw [htw.1, htw.2] at hrun
    simp only [drainWord, List.map_nil, List.append_nil] at hrun
    have hmain := ih ({ σ with pend := updateF σ.pend σ.parenLevel ('~' :: pendCur σ) })
      σ' h a m hrun
      (by
        intro l hl
        dsimp only at hl ⊢
        rw [updateF_ne _ _ _ _ (by intro hh; omega)]
        exact hI l hl)
      (by
        intro l x hx
        dsimp only at hx
        by_cases hll : l = σ.parenLevel
        · subst hll
          rw [updateF_self] at hx
          simp only [Option.getD_some] at hx
          rcases List.mem_cons.mp hx with hh | hh
          · rw [hh]; decide
          · exact hS σ.parenLevel x hh
        · rw [updateF_ne _ _ _ _ hll] at hx
          exact hS l x hx)
      hV hd
      (by
        have hpc : pendCur { σ with pend := updateF σ.pend σ.parenLevel ('~' :: pendCur σ) } =
            '~' :: pendCur σ := by
          rw [pendCur]
          dsimp only
          rw [updateF_self]
          rfl
        rw [hpc, drainWord, List.map_cons]
        rw [show Char.toString '~' = "~" from by decide]
        rw [rpnCheck, if_pos rfl, if_pos (by omega)]
        exact hsk)
      hm
    obtain ⟨hlev, hI2, hS2, hV2, hblw, hdef, a2, hda, hsk2⟩ := hmain
    dsimp only at hlev hblw hdef
    refine ⟨hlev, hI2, hS2, hV2, ?_, ?_, a2, hda, hsk2⟩
    · intro l hl
      rw [hblw l hl, updateF_ne _ _ _ _ (by intro hh; omega)]
    · intro l x hx
      by_cases hll : l = σ.parenLevel
      · subst hll
        exact hdef σ.parenLevel _ (updateF_self _ _ _)
      · exact hdef l x (by rw [updateF_ne _ _ _ _ hll]; exact hx)
  | @paren s2 hsub ih =>
    intro σ σ' h a m hrun hI hS hV hd hsk hm
    have hrun0 : (step σ '(').bind (fun σx => runFrom σx (s2 ++ [')'])) = some σ' := hrun
    rw [step_lparen_eq, Option.some_bind, runFrom_append] at hrun0
    replace hrun := hrun0
    obtain ⟨σ2, hruns, hrunp⟩ := Option.bind_eq_some.mp hrun
    rw [runFrom_single] at hrunp
    obtain ⟨stk2, hp2, hdata3, hmt3, hpend3, hlev3⟩ := step_rparen_inv σ2 σ' hrunp
    have hpc1 : pendCur { σ with parenLevel := σ.parenLevel + 1 } = [] := by
      rcases hI (σ.parenLevel + 1) (by omega) with hh | hh <;>
        rw [pendCur] <;> simp [hh]
    have hmain := ih ({ σ with parenLevel := σ.parenLevel + 1 }) σ2 h a (a + 1) hruns
      (by
        intro l hl
        dsimp only at hl ⊢
        exact hI l (by omega))
      (fun l => hS l) hV hd
      (by
        rw [hpc1]
        rfl)
      (by omega)
    obtain ⟨hlev2, hI2, hS2, hV2, hblw2, hdef2, a2, hda2, hsk2⟩ := hmain
    dsimp only at hlev2 hblw2 hdef2
    have hpc2 : pendCur σ2 = stk2 := by
      rw [pendCur, hp2]
      rfl
    have hlev2s : σ2.parenLevel = σ.parenLevel + 1 := hlev2
    refine ⟨?_, ?_, ?_, ?_, ?_, ?_, a + 1, ?_, ?_⟩
    · rw [hlev3, hlev2s]
      omega
    · intro l hl
      rw [hlev3, hlev2s] at hl
      rw [hpend3]
      by_cases hll : l = σ2.parenLevel
      · subst hll
        rw [updateF_self]
        exact Or.inr rfl
      · rw [updateF_ne _ _ _ _ hll]
        exact hI2 l (by rw [hlev2s]; rw [hlev2s] at hll; omega)
    · intro l x hx
      rw [hpend3] at hx
      by_cases hll : l = σ2.parenLevel
      · subst hll
        rw [updateF_self] at hx
        simp only [Option.getD_some] at hx
        exact absurd hx (List.not_mem_nil x)
      · rw [updateF_ne _ _ _ _ hll] at hx
        exact hS2 l x hx
    · intro p hp
      rw [hmt3] at hp
      exact hV2 p hp
    · intro l hl
      rw [hpend3, updateF_ne _ _ _ _ (by rw [hlev2s]; intro hh; omega)]
      rw [hblw2 l (by omega)]
    · intro l x hx
      by_cases hll : l = σ2.parenLevel
      · subst hll
        rw [hpend3]
        exact ⟨[], updateF_self _ _ _⟩
      · rw [hpend3, updateF_ne _ _ _ _ hll]
        exact hdef2 l x hx
    · rw [hdata3, rpnCheck_append, hda2, Option.some_bind, ← hpc2]
      exact hsk2
    · have hidx : σ'.parenLevel = σ.parenLevel := by
        rw [hlev3, hlev2s]
        omega
      have hpc' : pendCur σ' = pendCur σ := by
        rw [pendCur, pendCur, hpend3, hidx]
        rw [updateF_ne _ _ _ _ (show σ.parenLevel ≠ σ2.parenLevel by rw [hlev2s]; omega)]
        rw [hblw2 σ.parenLevel (by omega)]
      rw [hpc']
      exact hsk
  | @binop s2 t2 c hcop hcneq hsubs hsubt ihs iht =>
    intro σ σ' h a m hrun hI hS hV hd hsk hm
    rw [runFrom_append] at hrun
    obtain ⟨σ1, hrun1, hrun2⟩ := Option.bind_eq_some.mp hrun
    have hrun2b : (step σ1 c).bind (fun σx => runFrom σx t2) = some σ' := hrun2
    rw [step_op_eq σ1 c hcop, Option.some_bind] at hrun2b
    replace hrun2 := hrun2b
    obtain ⟨hlev1, hI1, hS1, hV1, hblw1, hdef1, a1, hda1, hsk1⟩ :=
      ihs σ σ1 h a m hrun1 hI hS hV hd hsk hm
    have hsplit : (pendCur σ1).takeWhile (fun t => decide (priority c < priority t)) ++
        (pendCur σ1).dropWhile (fun t => decide (priority c < priority t)) = pendCur σ1 :=
      List.takeWhile_append_dropWhile _ _
    rw [← hsplit] at hsk1
    rw [drainWord] at hsk1
    rw [List.map_append] at hsk1
    rw [rpnCheck_append] at hsk1
    obtain ⟨a2, hB, hA⟩ := Option.bind_eq_some.mp hsk1
    have ha2 : 1 ≤ a2 := by
      cases hAx : (pendCur σ1).dropWhile (fun t => decide (priority c < priority t)) with
      | nil =>
        rw [hAx] at hA
        simp only [List.map_nil, rpnCheck] at hA
        have := Option.some.inj hA
        omega
      | cons d A2 =>
        rw [hAx, List.map_cons] at hA
        refine rpnCheck_cons_pos _ _ _ _ (Or.inr ?_) hA
        rw [isOpStr_toString]
        have hdmem : d ∈ (pendCur σ1).dropWhile (fun t => decide (priority c < priority t)) := by
          rw [hAx]
          exact List.mem_cons_self _ _
        exact hS1 σ1.parenLevel d (mem_of_mem_dropWhile _ _ hdmem)
    have hcn : Char.toString c ≠ "~" := by
      intro hh
      exact hcneq ((toString_eq_tilde c).mp hh)
    have hmain := iht ({ σ1 with
        rpn := { σ1.rpn with data := σ1.rpn.data ++ drainWord ((pendCur σ1).takeWhile (fun t => priority c < priority t)) },
        pend := updateF σ1.pend σ1.parenLevel (c :: (pendCur σ1).dropWhile (fun t => priority c < priority t)) })
      σ' h a2 m hrun2
      (by
        intro l hl
        dsimp only at hl ⊢
        rw [updateF_ne _ _ _ _ (by intro hh; omega)]
        exact hI1 l hl)
      (by
        intro l x hx
        dsimp only at hx
        by_cases hll : l = σ1.parenLevel
        · subst hll
          rw [updateF_self] at hx
          simp only [Option.getD_some] at hx
          rcases List.mem_cons.mp hx with hh | hh
          · rw [hh]
            exact hcop
          · exact hS1 σ1.parenLevel x (mem_of_mem_dropWhile _ _ hh)
        · rw [updateF_ne _ _ _ _ hll] at hx
          exact hS1 l x hx)
      hV1
      (by
        dsimp only
        rw [rpnCheck_append, hda1, Option.some_bind, drainWord]
        exact hB)
      (by
        have hpc : pendCur { σ1 with
            rpn := { σ1.rpn with data := σ1.rpn.data ++ drainWord ((pendCur σ1).takeWhile (fun t => priority c < priority t)) },
            pend := updateF σ1.pend σ1.parenLevel (c :: (pendCur σ1).dropWhile (fun t => priority c < priority t)) } =
            c :: (pendCur σ1).dropWhile (fun t => priority c < priority t) := by
          rw [pendCur]
          dsimp only
          rw [updateF_self]
          rfl
        rw [hpc, drainWord, List.map_cons, rpnCheck, if_neg hcn,
          if_pos (show isOpStr (Char.toString c) = true by rw [isOpStr_toString]; exact hcop),
          if_pos (by omega)]
        have hred : a2 + 1 - 1 = a2 := by omega
        rw [hred]
        exact hA)
      hm
    obtain ⟨hlev, hI2, hS2, hV2, hblw, hdef, a3, hda, hsk2⟩ := hmain
    dsimp only at hlev hblw hdef
    refine ⟨by rw [hlev]; exact hlev1, hI2, hS2, hV2, ?_, ?_, a3, hda, hsk2⟩
    · intro l hl
      rw [hblw l (by rw [hlev1]; exact hl)]
      rw [updateF_ne _ _ _ _ (by rw [hlev1]; intro hh; omega)]
      exact hblw1 l hl
    · intro l x hx
      obtain ⟨y, hy⟩ := hdef1 l x hx
      by_cases hll : l = σ1.parenLevel
      · subst hll
        exact hdef σ1.parenLevel _ (updateF_self _ _ _)
      · refine hdef l y ?_
        rw [updateF_ne _ _ _ _ hll]
        exact hy

/-- C2 (amended): for every well-formed input proposition on which
`generateRPN` returns normally, the produced postfix program satisfies the
classical RPN well-formedness invariant — every operator finds its operands
(one for `~`, two for binary operators) and exactly one value remains. -/
theorem generateRPN_wellFormed (s : String) (rpn : RPN)
    (hwf : WFProp (trimJS s.data)) (h : generateRPN s = some rpn) :
    wellFormedRPN rpn.data := by
  obtain ⟨σ', stk, hr, hp, hrpn⟩ := generateRPN_split s rpn h
  have hmain := wf_run hwf initState σ' 0 0 1 hr
    (by
      intro l hl
      have hl0 : (0 : Int) < l := hl
      left
      rw [initState]
      dsimp only
      rw [if_neg (by omega)])
    (by
      intro l x hx
      rw [initState] at hx
      dsimp only at hx
      by_cases hl : l = 0
      · rw [if_pos hl] at hx
        simp at hx
      · rw [if_neg hl] at hx
        simp at hx)
    (by
      intro p hp2
      rw [initState] at hp2
      simp at hp2)
    rfl rfl (by omega)
  obtain ⟨hlev, hI2, hS2, hV2, hblw, hdef, a2, hda, hsk⟩ := hmain
  have hpc : pendCur σ' = stk := by
    rw [pendCur, hp]
    rfl
  have hdata : rpn.data = σ'.rpn.data ++ drainWord stk := by
    rw [hrpn]
    rfl
  rw [wellFormedRPN, hdata, rpnCheck_append, hda, Option.some_bind, ← hpc]
  exact hsk

/-- C2 counterexample: `((p&q))` is a well-formed input (balanced
parentheses, every operator supplied its operands), yet `generateRPN`
produces no postfix program at all: the outer `)` reads the never-created
level-1 pending stack (`undefined`) and the function throws. -/
theorem C2_counterexample :
    WFProp (trimJS "((p&q))".data) ∧ generateRPN "((p&q))" = none := by
  constructor
  · have h1 : WFProp ['p'] := WFProp.var 'p' (by decide) (by decide) (by decide)
    have h2 : WFProp ['q'] := WFProp.var 'q' (by decide) (by decide) (by decide)
    have h3 : WFProp ['p', '&', 'q'] := WFProp.binop '&' (by decide) (by decide) h1 h2
    have h4 : WFProp ['(', 'p', '&', 'q', ')'] := WFProp.paren h3
    have h5 : WFProp ['(', '(', 'p', '&', 'q', ')', ')'] := WFProp.paren h4
    exact h5
  · decide

/-- Witness for the amended C2 at the concrete input `p&q`. -/
theorem C2_witness :
    WFProp (trimJS "p&q".data) ∧
    generateRPN "p&q" = some
      { data := ["var1", "var2", "&"],
        codeVars := ["var1", "var2"],
        mathToCodeVars := [('p', "var1"), ('q', "var2")],
        codeToMathVars := [("var1", 'p'), ("var2", 'q')],
        variableCount := 2 } ∧
    wellFormedRPN ["var1", "var2", "&"] := by
  have hwf : WFProp (trimJS "p&q".data) :=
    WFProp.binop '&' (by decide) (by decide)
      (WFProp.var 'p' (by decide) (by decide) (by decide))
      (WFProp.var 'q' (by decide) (by decide) (by decide))
  refine ⟨hwf, by decide, ?_⟩
  exact generateRPN_wellFormed "p&q"
    { data := ["var1", "var2", "&"],
      codeVars := ["var1", "var2"],
      mathToCodeVars := [('p', "var1"), ('q', "var2")],
      codeToMathVars := [("var1", 'p'), ("var2", 'q')],
      variableCount := 2 } hwf (by decide)

end TruthTable
